import Mathlib

/-!
Verification development for the Query Governor & Plan Analyzer subsystem of
the libredb-studio repository.

SQL text is modelled as `List Char` (the JS string's character sequence).
JS regular-expression tests and replacements from
`src/lib/db/utils/query-limiter.ts` are embedded as executable character-level
matchers; each matcher mirrors one concrete regex of the source, with JS
whitespace class modelled by `Char.isWhitespace` and the JS word class
(ASCII letters, digits, underscore) modelled by `isWordChar`.
JS numbers are modelled as `Nat` where the source only ever holds
non-negative integers (limits, offsets, row counts) and as `Rat` where the
source performs division (the plan analyzer and formatting helpers).
-/

namespace LibreDB

/-! ## Character classes and case-insensitive comparison -/

/-- JS whitespace class used by both the regex class for spaces and trim. -/
def isWs (c : Char) : Bool := c.isWhitespace

/-- JS word-character class (ASCII letter, digit or underscore), the class
behind the word-boundary assertion of the source's regexes. -/
def isWordChar (c : Char) : Bool := c.isAlpha || c.isDigit || c = '_'

/-- ASCII decimal digit class. -/
def isDigitCh (c : Char) : Bool := c.isDigit

/-- Lower-case an ASCII upper-case letter, leave any other char unchanged. -/
def asciiLower (c : Char) : Char :=
  if 65 ≤ c.toNat ∧ c.toNat ≤ 90 then Char.ofNat (c.toNat + 32) else c

/-- Case-insensitive character comparison (the regex `i` flag, ASCII range). -/
def eqCI (a b : Char) : Bool := asciiLower a = asciiLower b

/-- ASCII upper-casing (JS toUpperCase on the ASCII range). -/
def asciiUpper (c : Char) : Char :=
  if 97 ≤ c.toNat ∧ c.toNat ≤ 122 then Char.ofNat (c.toNat - 32) else c

/-! ## Decimal rendering of a natural number (JS template interpolation) -/

/-- The decimal digit character for `n ≤ 9`. -/
def digitChar (n : Nat) : Char :=
  match n with
  | 0 => '0' | 1 => '1' | 2 => '2' | 3 => '3' | 4 => '4'
  | 5 => '5' | 6 => '6' | 7 => '7' | 8 => '8' | _ => '9'

/-- Fuel-driven digit accumulator; `fuel > n` suffices. -/
def natCharsAux : Nat → Nat → List Char → List Char
  | 0, _, acc => acc
  | fuel + 1, n, acc =>
    if n < 10 then digitChar n :: acc
    else natCharsAux fuel (n / 10) (digitChar (n % 10) :: acc)

/-- Decimal digit characters of `n` (JS number-to-string for naturals). -/
def natChars (n : Nat) : List Char := natCharsAux (n + 1) n []

/-- The numeric value of a digit string (JS parseInt on an all-digit match). -/
def digitsVal (ds : List Char) : Nat :=
  ds.foldl (fun a c => a * 10 + (c.toNat - 48)) 0

/-! ## Trimming and whitespace collapsing -/

/-- Remove trailing whitespace. -/
def dropTrailWs (l : List Char) : List Char :=
  ((l.reverse).dropWhile isWs).reverse

/-- JS String.prototype.trim on the character list. -/
def trimList (l : List Char) : List Char := dropTrailWs (l.dropWhile isWs)

/-- Replace each maximal whitespace run by a single space (the source's
normalization regex replacing runs of spaces); `prevWs` records whether the
previous character belonged to a run already replaced. -/
def collapseWsAux : Bool → List Char → List Char
  | _, [] => []
  | prevWs, c :: cs =>
    if isWs c then
      if prevWs then collapseWsAux true cs else ' ' :: collapseWsAux true cs
    else c :: collapseWsAux false cs

/-- Whitespace-collapsed, upper-cased text (the source's `normalized`). -/
def collapseUpper (l : List Char) : List Char :=
  (collapseWsAux false l).map asciiUpper

/-! ## Keyword matching -/

/-- Consume `kw` case-insensitively from the front of `l`, returning the rest. -/
def dropKw : List Char → List Char → Option (List Char)
  | [], l => some l
  | _ :: _, [] => none
  | k :: ks, c :: cs => if eqCI k c then dropKw ks cs else none

/-- Word boundary at the front of `l` (end of text or a non-word char). -/
def bdryB (l : List Char) : Bool :=
  match l with
  | [] => true
  | c :: _ => !isWordChar c

/-- The test for a leading-keyword regex anchored at the start with optional
leading whitespace and a trailing word boundary. -/
def testLeadKw (kw : String) (l : List Char) : Bool :=
  match dropKw kw.data (l.dropWhile isWs) with
  | some rest => bdryB rest
  | none => false

/-- Scan for a word-bounded, case-insensitive occurrence of `kw` anywhere;
`prev` records whether the character before the current position is a word
character (false at the very start). -/
def containsWordAux (kw : List Char) : Bool → List Char → Bool
  | _, [] => false
  | prev, c :: cs =>
    (!prev &&
      (match dropKw kw (c :: cs) with
       | some rest => bdryB rest
       | none => false)) ||
    containsWordAux kw (isWordChar c) cs

/-- The test for a word-bounded keyword occurring anywhere in the text. -/
def containsWord (kw : String) (l : List Char) : Bool :=
  containsWordAux kw.data false l

/-- Count word-bounded occurrences of `kw` (the source's global regex match
count).  Word boundaries on both sides make occurrences non-overlapping, so
counting match positions agrees with the JS global-regex scan. -/
def countWordAux (kw : List Char) : Bool → List Char → Nat
  | _, [] => 0
  | prev, c :: cs =>
    (if !prev &&
        (match dropKw kw (c :: cs) with
         | some rest => bdryB rest
         | none => false)
      then 1 else 0) +
    countWordAux kw (isWordChar c) cs

/-- Number of word-bounded occurrences of `kw` in the text. -/
def countWord (kw : String) (l : List Char) : Nat :=
  countWordAux kw.data false l

/-! ## Pieces of the LIMIT / OFFSET regexes -/

/-- One-or-more whitespace, greedy; returns the rest. -/
def parseWs1 : List Char → Option (List Char)
  | [] => none
  | c :: cs => if isWs c then some ((c :: cs).dropWhile isWs) else none

/-- One-or-more digits, greedy; returns the rest and the parsed value. -/
def parseDigits (l : List Char) : Option (List Char × Nat) :=
  let ds := l.takeWhile isDigitCh
  if ds.isEmpty then none else some (l.dropWhile isDigitCh, digitsVal ds)

/-- The end-anchored regex tail: optional whitespace, an optional single
semicolon, optional whitespace, then the end of the text. -/
def tailWsSemi (l : List Char) : Bool :=
  match l.dropWhile isWs with
  | [] => true
  | ';' :: r => r.all isWs
  | _ => false

/-! ## The four end-anchored regexes of query-limiter.ts

Each matcher decides whether the regex matches the text starting exactly at
the current position and extending to the end of the text; the leading word
boundary is checked by the scanner `reScan` below.  The regexes (all with the
case-insensitive flag) are:

* the analysis regex capturing a trailing LIMIT with either a comma form or
  an OFFSET-keyword form, with up to three number groups,
* the offset-only analysis regex,
* the MySQL-style strip regex (comma form),
* the standard strip regex (optional OFFSET-keyword form).
-/

/-- The comma alternative of the trailing-LIMIT regexes together with the
end-anchored tail: optional whitespace, a comma, optional whitespace, a
captured number, then the tail. -/
def commaPart (r3 : List Char) : Option Nat :=
  match r3.dropWhile isWs with
  | ',' :: r5 => do
    let (r7, n2) ← parseDigits (r5.dropWhile isWs)
    if tailWsSemi r7 then some n2 else none
  | _ => none

/-- The OFFSET-keyword alternative together with the end-anchored tail:
whitespace, OFFSET, whitespace, a captured number, then the tail. -/
def offsetPart (r3 : List Char) : Option Nat := do
  let r4 ← parseWs1 r3
  let r5 ← dropKw "OFFSET".data r4
  let r6 ← parseWs1 r5
  let (r7, n3) ← parseDigits r6
  if tailWsSemi r7 then some n3 else none

/-- Groups of the trailing-LIMIT analysis regex: the first number and, when
present, the comma-form second number or the OFFSET-form third number.
Alternatives are tried in the regex's order (comma form, then OFFSET form,
then the empty option), each together with the end-anchored tail. -/
def limitNums (l : List Char) : Option (Nat × Option Nat × Option Nat) := do
  let r1 ← dropKw "LIMIT".data l
  let r2 ← parseWs1 r1
  let (r3, n1) ← parseDigits r2
  match commaPart r3 with
  | some n2 => some (n1, some n2, none)
  | none =>
    match offsetPart r3 with
    | some n3 => some (n1, none, some n3)
    | none => if tailWsSemi r3 then some (n1, none, none) else none

/-- The offset-only analysis regex: a trailing OFFSET with one number group. -/
def offsetNums (l : List Char) : Option Nat := do
  let r1 ← dropKw "OFFSET".data l
  let r2 ← parseWs1 r1
  let (r3, n1) ← parseDigits r2
  if tailWsSemi r3 then some n1 else none

/-- The MySQL-style strip regex: LIMIT, number, comma, number, tail. -/
def mysqlMatchAt (l : List Char) : Bool :=
  (do
    let r1 ← dropKw "LIMIT".data l
    let r2 ← parseWs1 r1
    let (r3, _) ← parseDigits r2
    commaPart r3).isSome

/-- The standard strip regex: LIMIT, number, optionally OFFSET and a number,
then the end-anchored tail. -/
def stdMatchAt (l : List Char) : Bool :=
  (do
    let r1 ← dropKw "LIMIT".data l
    let r2 ← parseWs1 r1
    let (r3, _) ← parseDigits r2
    if (offsetPart r3).isSome then some ()
    else if tailWsSemi r3 then some () else none).isSome

/-! ## Leftmost-match scanning -/

/-- Leftmost-match scan for an end-anchored regex: try the matcher at each
position whose preceding character is not a word character (the leading word
boundary), return the prefix before the match and the matcher's result.
`prev` records whether the character before the current position is a word
character. -/
def reScan {α : Type} (f : List Char → Option α) :
    Bool → List Char → Option (List Char × α)
  | prev, [] =>
    match (if prev then none else f []) with
    | some g => some ([], g)
    | none => none
  | prev, c :: cs =>
    match (if prev then none else f (c :: cs)) with
    | some g => some ([], g)
    | none => (reScan f (isWordChar c) cs).map (fun p => (c :: p.1, p.2))

/-- Wrap a boolean matcher for use with `reScan`. -/
def bmatch (m : List Char → Bool) (l : List Char) : Option Unit :=
  if m l then some () else none

/-- JS String.prototype.match for an end-anchored regex: the groups of the
leftmost match, if any. -/
def findLimitMatch (l : List Char) : Option (Nat × Option Nat × Option Nat) :=
  (reScan limitNums false l).map (·.2)

/-- Leftmost match of the offset-only regex. -/
def findOffsetMatch (l : List Char) : Option Nat :=
  (reScan offsetNums false l).map (·.2)

/-- JS String.prototype.replace with the empty string for an end-anchored
regex: remove the leftmost match (which extends to the end), or return the
text unchanged when there is no match. -/
def replaceEnd (m : List Char → Bool) (l : List Char) : List Char :=
  match reScan (bmatch m) false l with
  | some p => p.1
  | none => l

/-! ## Data model of query-limiter.ts -/

inductive QueryType where
  | SELECT | INSERT | UPDATE | DELETE | DDL | OTHER
deriving DecidableEq, Repr

structure ParsedQueryInfo where
  type : QueryType
  hasLimit : Bool
  existingLimit : Option Nat
  hasOffset : Bool
  existingOffset : Option Nat
  isUnion : Bool
  hasCTE : Bool
  hasSubquery : Bool
deriving DecidableEq, Repr

structure LimitedQueryResult where
  sql : List Char
  wasLimited : Bool
  originalLimit : Option Nat
  appliedLimit : Nat
  appliedOffset : Nat
deriving DecidableEq, Repr

/-- The leading-keyword classification chain of `analyzeQuery`. -/
def detectType (trimmed : List Char) : QueryType :=
  if testLeadKw "SELECT" trimmed then .SELECT
  else if testLeadKw "INSERT" trimmed then .INSERT
  else if testLeadKw "UPDATE" trimmed then .UPDATE
  else if testLeadKw "DELETE" trimmed then .DELETE
  else if testLeadKw "CREATE" trimmed || testLeadKw "ALTER" trimmed ||
          testLeadKw "DROP" trimmed || testLeadKw "TRUNCATE" trimmed then .DDL
  else if testLeadKw "WITH" trimmed && containsWord "SELECT" trimmed then
    .SELECT
  else .OTHER

/-- `analyzeQuery` of query-limiter.ts. -/
def analyzeQuery (sql : List Char) : ParsedQueryInfo :=
  let trimmed := trimList sql
  let normalized := collapseUpper trimmed
  let type := detectType trimmed
  let limitMatch := findLimitMatch trimmed
  let hasLimit := limitMatch.isSome
  let existingLimit :=
    match limitMatch with
    | some (_, some n2, _) => some n2
    | some (n1, none, _) => some n1
    | none => none
  let existingOffset0 : Option Nat :=
    match limitMatch with
    | some (n1, some _, _) => some n1
    | some (_, none, n3) => n3
    | none => none
  let offsetOnlyMatch := if hasLimit then none else findOffsetMatch trimmed
  let hasOffset :=
    if hasLimit then existingOffset0.isSome else offsetOnlyMatch.isSome
  let existingOffset :=
    match offsetOnlyMatch with
    | some n => if hasLimit then existingOffset0 else some n
    | none => existingOffset0
  { type := type
    hasLimit := hasLimit
    existingLimit := existingLimit
    hasOffset := hasOffset
    existingOffset := existingOffset
    isUnion := containsWord "UNION" normalized
    hasCTE := testLeadKw "WITH" trimmed
    hasSubquery := decide (countWord "SELECT" normalized > 1) }

/-- The appended clause text: `LIMIT n` alone, or `LIMIT n OFFSET m`. -/
def limitClause (limit offset : Nat) : List Char :=
  if offset > 0 then
    "LIMIT ".data ++ natChars limit ++ " OFFSET ".data ++ natChars offset
  else
    "LIMIT ".data ++ natChars limit

/-- Trailing-semicolon test (JS endsWith). -/
def endsSemi (l : List Char) : Bool := l.getLast? = some ';'

/-- `applyQueryLimit` of query-limiter.ts (`forceLimit` is the only consulted
option; `limit` and `offset` are the caller's requested bounds). -/
def applyQueryLimit (sql : List Char) (limit offset : Nat)
    (forceLimit : Bool) : LimitedQueryResult :=
  let info := analyzeQuery sql
  if info.type ≠ QueryType.SELECT then
    { sql := sql, wasLimited := false, originalLimit := none
      appliedLimit := 0, appliedOffset := 0 }
  else if info.hasLimit && !forceLimit then
    { sql := sql, wasLimited := false, originalLimit := info.existingLimit
      appliedLimit := info.existingLimit.getD 0
      appliedOffset := info.existingOffset.getD 0 }
  else
    let m0 := trimList sql
    let m1 :=
      if info.hasLimit && forceLimit then
        trimList (replaceEnd stdMatchAt (trimList (replaceEnd mysqlMatchAt m0)))
      else m0
    let hasSemicolon := endsSemi m1
    let m2 := if hasSemicolon then trimList m1.dropLast else m1
    let m3 := m2 ++ ' ' :: limitClause limit offset
    let m4 := if hasSemicolon then m3 ++ [';'] else m3
    { sql := m4, wasLimited := true, originalLimit := info.existingLimit
      appliedLimit := limit, appliedOffset := offset }

/-- `hasQueryLimit` of query-limiter.ts. -/
def hasQueryLimit (sql : List Char) : Bool := (analyzeQuery sql).hasLimit

/-- `isSelectQuery` of query-limiter.ts. -/
def isSelectQuery (sql : List Char) : Bool :=
  (analyzeQuery sql).type = QueryType.SELECT

/-! ## Plan analyzer (VisualExplain.tsx)

Numeric plan fields are JS numbers, modelled as `Rat`; fields are optional in
the source's type and modelled as `Option`.  JS `x || y` on numbers takes `y`
exactly when `x` is absent or zero. -/

/-- JS `x || d` for an optional numeric field: the field when present and
non-zero, otherwise `d`. -/
def numOr (a : Option ℚ) (d : ℚ) : ℚ :=
  match a with
  | some x => if x = 0 then d else x
  | none => d

/-- JS String.prototype.includes, character-exact. -/
def startsWithChars : List Char → List Char → Bool
  | [], _ => true
  | _ :: _, [] => false
  | p :: ps, c :: cs => p = c && startsWithChars ps cs

def hasSubChars (pat : List Char) : List Char → Bool
  | [] => pat.isEmpty
  | c :: cs => startsWithChars pat (c :: cs) || hasSubChars pat cs

def strIncludes (s pat : String) : Bool := hasSubChars pat.data s.data

/-- Zero-padded digit rendering for the fractional part of toFixed. -/
def natCharsPad (d n : Nat) : List Char :=
  let s := natChars n
  List.replicate (d - s.length) '0' ++ s

/-- JS Number.prototype.toFixed with `d` decimals: round to the nearest
multiple of `10 ^ (-d)`, ties towards the larger value, then render.
Computed on the rational's numerator and denominator with floor division. -/
def ratToFixed (d : Nat) (q : ℚ) : String :=
  let m : ℤ := (10 : ℤ) ^ d
  let n : ℤ := Int.fdiv (2 * q.num * m + (q.den : ℤ)) (2 * (q.den : ℤ))
  let a := n.natAbs
  let ip := a / 10 ^ d
  let fp := a % 10 ^ d
  (if n < 0 then "-" else "") ++ String.mk (natChars ip) ++
    (if d = 0 then "" else "." ++ String.mk (natCharsPad d fp))

/-- `formatNumber` of VisualExplain.tsx. -/
def vxFormatNumber (q : ℚ) : String :=
  if q ≥ 1000000 then ratToFixed 1 (q / 1000000) ++ "M"
  else if q ≥ 1000 then ratToFixed 1 (q / 1000) ++ "K"
  else ratToFixed 0 q

/-- `formatTime` of VisualExplain.tsx. -/
def formatTime (ms : ℚ) : String :=
  if ms ≥ 1000 then ratToFixed 2 (ms / 1000) ++ "s"
  else if ms ≥ 1 then ratToFixed 2 ms ++ "ms"
  else ratToFixed 0 (ms * 1000) ++ "μs"

inductive Severity where
  | critical | warning | info
deriving DecidableEq, Repr

structure PlanWarning where
  type : Severity
  title : String
  description : String
  node : Option String
deriving DecidableEq, Repr

inductive InsightStatus where
  | good | warning | critical
deriving DecidableEq, Repr

structure Insight where
  label : String
  value : String
  status : InsightStatus
deriving DecidableEq, Repr

/-- One node of the engine-produced plan tree (`ExplainPlanNode`). -/
structure ExplainPlanNode where
  nodeType : Option String
  actualRows : Option ℚ
  planRows : Option ℚ
  actualTotalTime : Option ℚ
  totalCost : Option ℚ
  sharedHitBlocks : Option ℚ
  sharedReadBlocks : Option ℚ
  relationName : Option String
  actualLoops : Option ℚ
  filter : Option String
  indexName : Option String
  plans : List ExplainPlanNode

/-- One element of the EXPLAIN JSON result array (`ExplainPlanResult`). -/
structure ExplainPlanResult where
  plan : Option ExplainPlanNode
  executionTime : Option ℚ
  planningTime : Option ℚ

structure PlanAnalysis where
  totalTime : ℚ
  planningTime : ℚ
  executionTime : ℚ
  totalRows : ℚ
  totalCost : ℚ
  bufferHits : ℚ
  bufferReads : ℚ
  nodeCount : Nat
  warnings : List PlanWarning
  insights : List Insight

/-- Mutable traversal state of `analyzePlan` (the captured local variables). -/
structure TravAcc where
  totalRows : ℚ
  nodeCount : Nat
  bufferHits : ℚ
  bufferReads : ℚ
  warnings : List PlanWarning
deriving DecidableEq, Repr

/-- The warnings `analyzeNode` pushes for one node, in rule order. -/
def nodeWarnings (node : ExplainPlanNode) : List PlanWarning :=
  let nodeType := node.nodeType.getD ""
  let actualRows := node.actualRows.getD 0
  let planRows := node.planRows.getD 0
  let actualTime := node.actualTotalTime.getD 0
  let actualLoops := node.actualLoops.getD 1
  (if strIncludes nodeType "Seq Scan" && decide (actualRows > 10000) then
    [{ type := Severity.warning, title := "Sequential Scan"
       description := "Full table scan on \"" ++
         node.relationName.getD "table" ++ "\" (" ++
         vxFormatNumber actualRows ++ " rows). Consider adding an index."
       node := some nodeType }]
  else []) ++
  (if decide (planRows > 0) && decide (actualRows > 0) &&
      (decide (actualRows / planRows > 10) ||
       decide (actualRows / planRows < 0.1)) then
    [{ type := Severity.info, title := "Estimate Mismatch"
       description := "Expected " ++ vxFormatNumber planRows ++
         " rows, got " ++ vxFormatNumber actualRows ++
         ". Statistics may be outdated."
       node := some nodeType }]
  else []) ++
  (if strIncludes nodeType "Sort" && decide (actualTime > 100) then
    [{ type := Severity.warning, title := "Expensive Sort"
       description := "Sort operation took " ++ formatTime actualTime ++
         ". Consider adding an index for ordered access."
       node := some nodeType }]
  else []) ++
  (if strIncludes nodeType "Nested Loop" && decide (actualLoops > 1000) then
    [{ type := Severity.critical, title := "High Loop Count"
       description := "Nested loop executed " ++ vxFormatNumber actualLoops ++
         " times. This could indicate an N+1 problem."
       node := some nodeType }]
  else [])

theorem ExplainPlanNode.sizeOf_plans_lt (node : ExplainPlanNode) :
    sizeOf node.plans < sizeOf node := by
  cases node with
  | mk a b c d e f g h i j k plans => simp

mutual

/-- The recursive `analyzeNode` of `analyzePlan`: count the node, accumulate
row and buffer totals, push this node's warnings, then visit the children. -/
def visitNode (node : ExplainPlanNode) (acc : TravAcc) : TravAcc :=
  visitList node.plans
    { totalRows := acc.totalRows + node.actualRows.getD 0
      nodeCount := acc.nodeCount + 1
      bufferHits := acc.bufferHits + node.sharedHitBlocks.getD 0
      bufferReads := acc.bufferReads + node.sharedReadBlocks.getD 0
      warnings := acc.warnings ++ nodeWarnings node }
termination_by sizeOf node
decreasing_by
  exact node.sizeOf_plans_lt

def visitList (l : List ExplainPlanNode) (acc : TravAcc) : TravAcc :=
  match l with
  | [] => acc
  | n :: ns => visitList ns (visitNode n acc)
termination_by sizeOf l
decreasing_by
  all_goals simp
  all_goals omega

end

/-- The cache-hit-rate insight of `analyzePlan`; the status comparison guards
its denominator with JS `|| 1`, the value branches on a positive sum. -/
def cacheHitInsight (hits reads : ℚ) : Insight :=
  { label := "Cache Hit Rate"
    value :=
      if hits + reads > 0 then
        ratToFixed 1 (hits / (hits + reads) * 100) ++ "%"
      else "N/A"
    status :=
      if hits / (if hits + reads = 0 then 1 else hits + reads) > 0.95 then
        InsightStatus.good
      else InsightStatus.warning }

/-- The operations-count insight of `analyzePlan`. -/
def opsInsight (cnt : Nat) : Insight :=
  { label := "Operations"
    value := String.mk (natChars cnt)
    status := if cnt > 20 then InsightStatus.warning else InsightStatus.good }

/-- The execution-time insight of `analyzePlan`. -/
def execInsight (t : ℚ) : Insight :=
  { label := "Execution"
    value := formatTime t
    status :=
      if t > 1000 then InsightStatus.critical
      else if t > 100 then InsightStatus.warning
      else InsightStatus.good }

/-- `analyzePlan` of VisualExplain.tsx. -/
def analyzePlan (plan : List ExplainPlanResult) : PlanAnalysis :=
  let rootPlan := (plan.head?).bind (·.plan)
  let executionTime :=
    numOr ((plan.head?).bind (·.executionTime))
      (numOr (rootPlan.bind (·.actualTotalTime)) 0)
  let planningTime := numOr ((plan.head?).bind (·.planningTime)) 0
  let totalCost := numOr (rootPlan.bind (·.totalCost)) 0
  let acc :=
    match rootPlan with
    | some r => visitNode r ⟨0, 0, 0, 0, []⟩
    | none => (⟨0, 0, 0, 0, []⟩ : TravAcc)
  { totalTime := executionTime + planningTime
    planningTime := planningTime
    executionTime := executionTime
    totalRows := acc.totalRows
    totalCost := totalCost
    bufferHits := acc.bufferHits
    bufferReads := acc.bufferReads
    nodeCount := acc.nodeCount
    warnings := acc.warnings
    insights :=
      [cacheHitInsight acc.bufferHits acc.bufferReads,
       opsInsight acc.nodeCount,
       execInsight executionTime] }

/-! ### Division instrumentation

`planDivisors` lists, mirroring the analyzer's control flow, the denominator
of every division the analyzer evaluates (including the constant denominators
inside the formatting helpers), so that guarding of divisions is a provable
statement about this list. -/

/-- Denominators evaluated by a `formatNumber` call. -/
def fmtNumberDivs (q : ℚ) : List ℚ :=
  if q ≥ 1000000 then [1000000] else if q ≥ 1000 then [1000] else []

/-- Denominators evaluated by a `formatTime` call. -/
def fmtTimeDivs (ms : ℚ) : List ℚ :=
  if ms ≥ 1000 then [1000] else []

/-- Denominators evaluated while analyzing one node (rule order). -/
def nodeDivs (node : ExplainPlanNode) : List ℚ :=
  let nodeType := node.nodeType.getD ""
  let actualRows := node.actualRows.getD 0
  let planRows := node.planRows.getD 0
  let actualTime := node.actualTotalTime.getD 0
  let actualLoops := node.actualLoops.getD 1
  (if strIncludes nodeType "Seq Scan" && decide (actualRows > 10000) then
    fmtNumberDivs actualRows
  else []) ++
  (if decide (planRows > 0) && decide (actualRows > 0) then
    [planRows] ++
      (if decide (actualRows / planRows > 10) ||
          decide (actualRows / planRows < 0.1) then
        fmtNumberDivs planRows ++ fmtNumberDivs actualRows
      else [])
  else []) ++
  (if strIncludes nodeType "Sort" && decide (actualTime > 100) then
    fmtTimeDivs actualTime
  else []) ++
  (if strIncludes nodeType "Nested Loop" && decide (actualLoops > 1000) then
    fmtNumberDivs actualLoops
  else [])

mutual

def treeDivs (node : ExplainPlanNode) : List ℚ :=
  nodeDivs node ++ forestDivs node.plans
termination_by sizeOf node
decreasing_by
  exact node.sizeOf_plans_lt

def forestDivs (l : List ExplainPlanNode) : List ℚ :=
  match l with
  | [] => []
  | n :: ns => treeDivs n ++ forestDivs ns
termination_by sizeOf l
decreasing_by
  all_goals simp
  all_goals omega

end

/-- Every denominator `analyzePlan` evaluates on the given input. -/
def planDivisors (plan : List ExplainPlanResult) : List ℚ :=
  let rootPlan := (plan.head?).bind (·.plan)
  let executionTime :=
    numOr ((plan.head?).bind (·.executionTime))
      (numOr (rootPlan.bind (·.actualTotalTime)) 0)
  let acc :=
    match rootPlan with
    | some r => visitNode r ⟨0, 0, 0, 0, []⟩
    | none => (⟨0, 0, 0, 0, []⟩ : TravAcc)
  (match rootPlan with
   | some r => treeDivs r
   | none => []) ++
  (if acc.bufferHits + acc.bufferReads > 0 then
    [acc.bufferHits + acc.bufferReads]
  else []) ++
  [if acc.bufferHits + acc.bufferReads = 0 then 1
   else acc.bufferHits + acc.bufferReads] ++
  fmtTimeDivs executionTime

/-! ## Cardinality estimator (app/api/db/estimate/route.ts)

The route handler is async IO; it is embedded as a function of the request's
SQL text, the connection's engine tag, and the outcome of the delegated
`provider.query(EXPLAIN ...)` call, which either succeeds with a result or
throws one of the error classes distinguished by the catch block.  The JSON
path navigation on the provider result (`rows[0]['QUERY PLAN'][0].Plan['Plan
Rows']` for Postgres, `parseInt(row.rows)` per row for MySQL) is modelled by
the pre-extracted fields of `QueryResultModel`: the Postgres field is the
plan's row estimate when the whole optional path exists, the MySQL field is
the per-row parsed estimate (absent when parseInt yields NaN, which `|| 0`
turns into zero). -/

inductive DbKind where
  | postgres | mysql | sqlite | other
deriving DecidableEq, Repr

/-- The error classes the catch block distinguishes. -/
inductive EstimateErr where
  | queryError | timeoutError | databaseError | otherError
deriving DecidableEq, Repr

structure QueryResultModel where
  pgPlanRows : Option Nat
  mysqlRows : List (Option Nat)

structure EstimateResponse where
  estimatedRows : Nat
  isLargeResult : Bool
  warning : Option String
  error : Option String
deriving DecidableEq, Repr

/-- `LARGE_RESULT_THRESHOLD` of route.ts. -/
def LARGE_RESULT_THRESHOLD : Nat := 10000

/-- `formatNumber` of route.ts (plain toString below one thousand). -/
def estFormatNumber (num : Nat) : String :=
  if num ≥ 1000000 then ratToFixed 1 ((num : ℚ) / 1000000) ++ "M"
  else if num ≥ 1000 then ratToFixed 1 ((num : ℚ) / 1000) ++ "K"
  else String.mk (natChars num)

/-- The large-result warning string built by the route. -/
def largeWarning (estimatedRows : Nat) : String :=
  "This query may return ~" ++ estFormatNumber estimatedRows ++
    " rows. Consider adding filters or using LIMIT."

/-- The threshold comparison and response of the route's success path. -/
def mkEstimateResponse (estimatedRows : Nat) : EstimateResponse :=
  let isLargeResult := decide (estimatedRows > LARGE_RESULT_THRESHOLD)
  { estimatedRows := estimatedRows
    isLargeResult := isLargeResult
    warning := if isLargeResult then some (largeWarning estimatedRows) else none
    error := none }

/-- The response of the catch block for each error class. -/
def catchResponse (e : EstimateErr) : EstimateResponse :=
  match e with
  | .queryError =>
    { estimatedRows := 0, isLargeResult := false, warning := none
      error := some "Could not estimate row count" }
  | .timeoutError =>
    { estimatedRows := 0, isLargeResult := false, warning := none
      error := some "Estimate timed out" }
  | .databaseError =>
    { estimatedRows := 0, isLargeResult := false, warning := none
      error := some "Could not estimate row count" }
  | .otherError =>
    { estimatedRows := 0, isLargeResult := false, warning := none
      error := none }

/-- The POST handler of route.ts from the `isSelectQuery` gate onward:
non-SELECT text short-circuits to a zero estimate; Postgres and MySQL
delegate to the provider and extract a row estimate; SQLite and other
engines yield zero without a call; a thrown provider error is caught and
mapped by `catchResponse`. -/
def estimatePost (sql : List Char) (dbType : DbKind)
    (outcome : Except EstimateErr QueryResultModel) : EstimateResponse :=
  if ¬ isSelectQuery sql then
    { estimatedRows := 0, isLargeResult := false, warning := none
      error := none }
  else
    match dbType, outcome with
    | .postgres, .ok r => mkEstimateResponse (r.pgPlanRows.getD 0)
    | .mysql, .ok r =>
      mkEstimateResponse
        (if r.mysqlRows.length > 0 then
          r.mysqlRows.foldl (fun s x => s + x.getD 0) 0
        else 0)
    | .sqlite, _ => mkEstimateResponse 0
    | .other, _ => mkEstimateResponse 0
    | .postgres, .error e => catchResponse e
    | .mysql, .error e => catchResponse e

/-! ## Supporting lemmas: characters -/

theorem toNat_ofNat_of_lt {n : ℕ} (h : n < 55296) : (Char.ofNat n).toNat = n := by
  have hv : n.isValidChar := Or.inl h
  simp [Char.ofNat, hv, Char.toNat, Char.ofNatAux, UInt32.toNat,
    BitVec.toNat_ofNatLt]

theorem char_eq_of_toNat_eq {a b : Char} (h : a.toNat = b.toNat) : a = b := by
  have := congrArg Char.ofNat h
  rwa [Char.ofNat_toNat, Char.ofNat_toNat] at this

theorem toNat_lt_or (c : Char) : c.toNat < 55296 ∨ 57343 < c.toNat := by
  rcases c.valid with h | ⟨h1, h2⟩
  · exact Or.inl (by simpa [Char.toNat] using h)
  · exact Or.inr (by simpa [Char.toNat] using h1)

theorem uint32_le_iff {a b : UInt32} : a ≤ b ↔ a.toNat ≤ b.toNat := by
  constructor <;> intro h
  · have h2 : a.toBitVec ≤ b.toBitVec := h
    simpa [UInt32.toNat, BitVec.le_def] using h2
  · show a.toBitVec ≤ b.toBitVec
    simp only [UInt32.toNat] at h
    simpa [BitVec.le_def] using h

theorem asciiLower_toNat (c : Char) :
    (asciiLower c).toNat =
      if 65 ≤ c.toNat ∧ c.toNat ≤ 90 then c.toNat + 32 else c.toNat := by
  unfold asciiLower
  split
  · next h => exact toNat_ofNat_of_lt (by omega)
  · rfl

theorem eqCI_toNat {k c : Char} (h : eqCI k c = true) :
    (asciiLower k).toNat = (asciiLower c).toNat := by
  unfold eqCI at h
  rw [of_decide_eq_true h]

/-- Characters case-insensitively equal to `k` have the code of `asciiLower k`
or that code minus 32. -/
theorem eqCI_inv {k c : Char} (h : eqCI k c = true) :
    c.toNat = (asciiLower k).toNat ∨
      (65 ≤ c.toNat ∧ c.toNat ≤ 90 ∧ c.toNat + 32 = (asciiLower k).toNat) := by
  have h1 := eqCI_toNat h
  rw [asciiLower_toNat c] at h1
  by_cases h2 : 65 ≤ c.toNat ∧ c.toNat ≤ 90
  · rw [if_pos h2] at h1
    exact Or.inr ⟨h2.1, h2.2, h1.symm⟩
  · rw [if_neg h2] at h1
    exact Or.inl h1.symm

/-- Conversely, deciding `eqCI` from a code computation. -/
theorem asciiLower_eq_iff_toNat {c d : Char} :
    asciiLower c = d ↔ (asciiLower c).toNat = d.toNat :=
  ⟨fun h => h ▸ rfl, char_eq_of_toNat_eq⟩

theorem not_asciiLower_eq_of_ws {c : Char} (h : isWs c = true) (d : Char)
    (hd : 96 < d.toNat) : asciiLower c ≠ d := by
  have : c = ' ' ∨ c = '\t' ∨ c = '\r' ∨ c = '\n' := by
    revert h; unfold isWs Char.isWhitespace
    simp only [Bool.or_eq_true, decide_eq_true_eq]
    tauto
  intro he
  have h2 : (asciiLower c).toNat = d.toNat := he ▸ rfl
  rw [asciiLower_toNat] at h2
  rcases this with rfl | rfl | rfl | rfl <;> simp_all <;> omega

theorem not_asciiLower_eq_of_digit {c : Char} (h : isDigitCh c = true)
    (d : Char) (hd : 96 < d.toNat) : asciiLower c ≠ d := by
  have h48 : 48 ≤ c.toNat ∧ c.toNat ≤ 57 := by
    revert h; unfold isDigitCh Char.isDigit
    simp only [Bool.and_eq_true, decide_eq_true_eq, Char.le_def, Char.toNat]
    intro h
    exact ⟨h.1, h.2⟩
  intro he
  have h2 : (asciiLower c).toNat = d.toNat := he ▸ rfl
  rw [asciiLower_toNat] at h2
  split at h2 <;> omega

theorem isWordChar_of_asciiLower_letter {c : Char} {d : ℕ}
    (h : (asciiLower c).toNat = d) (h1 : 97 ≤ d) (h2 : d ≤ 122) :
    isWordChar c = true := by
  rw [asciiLower_toNat] at h
  unfold isWordChar Char.isAlpha Char.isUpper Char.isLower
  simp only [Bool.or_eq_true, Bool.and_eq_true, decide_eq_true_eq, ge_iff_le]
  split at h
  · next hc =>
    refine Or.inl (Or.inl (Or.inl ⟨?_, ?_⟩))
    · exact uint32_le_iff.mpr (by simpa [Char.toNat] using hc.1)
    · exact uint32_le_iff.mpr (by simpa [Char.toNat] using hc.2)
  · next hc =>
    have hlo : 97 ≤ c.toNat := by omega
    have hhi : c.toNat ≤ 122 := by omega
    refine Or.inl (Or.inl (Or.inr ⟨?_, ?_⟩))
    · exact uint32_le_iff.mpr (by simpa [Char.toNat] using hlo)
    · exact uint32_le_iff.mpr (by simpa [Char.toNat] using hhi)

/-! ## Supporting lemmas: decimal rendering -/

theorem digitChar_digit (n : Nat) : isDigitCh (digitChar n) = true := by
  unfold digitChar
  split <;> decide

theorem natCharsAux_acc (fuel : Nat) :
    ∀ (n : Nat) (acc : List Char),
      natCharsAux fuel n acc = natCharsAux fuel n [] ++ acc := by
  induction fuel with
  | zero => intro n acc; simp [natCharsAux]
  | succ fuel ih =>
    intro n acc
    unfold natCharsAux
    split
    · rfl
    · rw [ih (n / 10) (digitChar (n % 10) :: acc),
        ih (n / 10) [digitChar (n % 10)], List.append_assoc]
      rfl

theorem natCharsAux_digits (fuel : Nat) :
    ∀ (n : Nat) (c : Char), c ∈ natCharsAux fuel n [] → isDigitCh c = true := by
  induction fuel with
  | zero => intro n c h; simp [natCharsAux] at h
  | succ fuel ih =>
    intro n c h
    unfold natCharsAux at h
    split at h
    · rcases List.mem_singleton.mp h with rfl
      exact digitChar_digit n
    · rw [natCharsAux_acc] at h
      rcases List.mem_append.mp h with h | h
      · exact ih _ _ h
      · rcases List.mem_singleton.mp h with rfl
        exact digitChar_digit _

theorem natChars_digits {n : Nat} {c : Char} (h : c ∈ natChars n) :
    isDigitCh c = true :=
  natCharsAux_digits (n + 1) n c h

theorem natCharsAux_ne_nil (fuel n : Nat) (h : 0 < fuel) :
    natCharsAux fuel n [] ≠ [] := by
  cases fuel with
  | zero => omega
  | succ fuel =>
    unfold natCharsAux
    split
    · simp
    · rw [natCharsAux_acc]
      simp

theorem natChars_ne_nil (n : Nat) : natChars n ≠ [] :=
  natCharsAux_ne_nil (n + 1) n (by omega)

theorem digitsVal_append_digit (ds : List Char) (c : Char) :
    digitsVal (ds ++ [c]) = 10 * digitsVal ds + (c.toNat - 48) := by
  unfold digitsVal
  rw [List.foldl_append]
  simp [Nat.mul_comm]

theorem digitChar_toNat (n : Nat) (h : n < 10) :
    (digitChar n).toNat - 48 = n := by
  interval_cases n <;> decide

theorem natCharsAux_val (fuel : Nat) :
    ∀ n : Nat, n < fuel → digitsVal (natCharsAux fuel n []) = n := by
  induction fuel with
  | zero => omega
  | succ fuel ih =>
    intro n hn
    unfold natCharsAux
    split
    · next h =>
      show digitsVal ([] ++ [digitChar n]) = n
      rw [digitsVal_append_digit]
      unfold digitsVal
      simp [digitChar_toNat n h]
    · next h =>
      rw [natCharsAux_acc, digitsVal_append_digit,
        ih (n / 10) (by omega), digitChar_toNat (n % 10) (by omega)]
      omega

theorem digitsVal_natChars (n : Nat) : digitsVal (natChars n) = n :=
  natCharsAux_val (n + 1) n (by omega)

theorem natChars_getLast?_digit (n : Nat) :
    ∃ c, (natChars n).getLast? = some c ∧ isDigitCh c = true := by
  have hne := natChars_ne_nil n
  rcases List.getLast?_eq_getLast (natChars n) hne with h
  refine ⟨(natChars n).getLast hne, h, ?_⟩
  exact natChars_digits (List.getLast_mem hne)

/-! ## Supporting lemmas: whitespace splitting and trimming -/

/-- Splitting `takeWhile`/`dropWhile` along an append whose left part wholly
satisfies the predicate and whose right part starts with a failure. -/
theorem span_append {p : Char → Bool} {a b : List Char}
    (ha : ∀ c ∈ a, p c = true) (hb : ∀ c, b.head? = some c → p c = false) :
    (a ++ b).takeWhile p = a ∧ (a ++ b).dropWhile p = b := by
  induction a with
  | nil =>
    simp only [List.nil_append]
    cases b with
    | nil => simp
    | cons c cs =>
      have := hb c rfl
      constructor
      · rw [List.takeWhile_cons, this]; simp
      · rw [List.dropWhile_cons, this]; simp
  | cons x a ih =>
    have hx := ha x (List.mem_cons_self x a)
    have ih2 := ih (fun c hc => ha c (List.mem_cons_of_mem x hc))
    constructor
    · rw [List.cons_append, List.takeWhile_cons, hx]
      simp [ih2.1]
    · rw [List.cons_append, List.dropWhile_cons, hx]
      simp [ih2.2]

theorem dropWhile_eq_self_of_head {p : Char → Bool} {l : List Char}
    (h : ∀ c, l.head? = some c → p c = false) : l.dropWhile p = l := by
  cases l with
  | nil => rfl
  | cons c cs => rw [List.dropWhile_cons, h c rfl]; simp

/-- A list is trimmed when trimming does not change it. -/
def TrimmedL (l : List Char) : Prop :=
  l.dropWhile isWs = l ∧ l.reverse.dropWhile isWs = l.reverse

theorem dropTrailWs_eq_of_trimmed {l : List Char} (h : TrimmedL l) :
    dropTrailWs l = l := by
  unfold dropTrailWs
  rw [h.2, List.reverse_reverse]

theorem trimList_eq_of_trimmed {l : List Char} (h : TrimmedL l) :
    trimList l = l := by
  unfold trimList
  rw [h.1, dropTrailWs_eq_of_trimmed h]

/-- The head of a `dropWhile` result fails the predicate. -/
theorem dropWhile_head_false {p : Char → Bool} {l : List Char} :
    ∀ c, (l.dropWhile p).head? = some c → p c = false := by
  induction l with
  | nil => intro c hc; simp at hc
  | cons x xs ih =>
    intro c hc
    rw [List.dropWhile_cons] at hc
    by_cases hx : p x
    · rw [if_pos hx] at hc
      exact ih c hc
    · rw [if_neg hx] at hc
      simp only [List.head?_cons, Option.some.injEq] at hc
      subst hc
      exact Bool.not_eq_true _ |>.mp hx

theorem dropWhile_idem (p : Char → Bool) (l : List Char) :
    (l.dropWhile p).dropWhile p = l.dropWhile p :=
  dropWhile_eq_self_of_head (fun c hc => dropWhile_head_false c hc)

theorem dropWhile_suffix_self (p : Char → Bool) (l : List Char) :
    l.dropWhile p <:+ l :=
  ⟨l.takeWhile p, List.takeWhile_append_dropWhile p l⟩

theorem dropTrailWs_prefix_self (l : List Char) : dropTrailWs l <+: l := by
  rcases dropWhile_suffix_self isWs l.reverse with ⟨t, ht⟩
  refine ⟨t.reverse, ?_⟩
  unfold dropTrailWs
  have := congrArg List.reverse ht
  simpa using this

theorem trimmed_trimList (l : List Char) : TrimmedL (trimList l) := by
  constructor
  · apply dropWhile_eq_self_of_head
    intro c hc
    rcases dropTrailWs_prefix_self (l.dropWhile isWs) with ⟨t, ht⟩
    have hh : (l.dropWhile isWs).head? = some c := by
      rw [← ht, List.head?_append]
      unfold trimList at hc
      rw [hc]
      rfl
    exact dropWhile_head_false c hh
  · unfold trimList dropTrailWs
    rw [List.reverse_reverse]
    exact dropWhile_idem isWs _

/-- Trimming an already trimmed list extended by a single space. -/
theorem trimList_append_space {m : List Char} (h : TrimmedL m) :
    trimList (m ++ [' ']) = m := by
  cases hm : m with
  | nil => decide
  | cons x xs =>
    rw [← hm]
    unfold trimList dropTrailWs
    have h1 : (m ++ [' ']).dropWhile isWs = m ++ [' '] := by
      rw [List.dropWhile_append, h.1, hm]
      simp
    rw [h1, List.reverse_append]
    show ((' ' :: m.reverse).dropWhile isWs).reverse = m
    rw [List.dropWhile_cons]
    simp only [show isWs ' ' = true from rfl, if_true]
    rw [h.2, List.reverse_reverse]

/-! ## Supporting lemmas: keyword consumption -/

/-- Relational characterization of case-insensitive keyword consumption. -/
def CharsCI (kw p : List Char) : Prop :=
  List.Forall₂ (fun k c => eqCI k c = true) kw p

theorem dropKw_some_iff {kw l r : List Char} :
    dropKw kw l = some r ↔ ∃ p, l = p ++ r ∧ CharsCI kw p := by
  induction kw generalizing l with
  | nil =>
    constructor
    · intro h
      refine ⟨[], ?_, List.Forall₂.nil⟩
      simpa [dropKw] using h
    · rintro ⟨p, rfl, hp⟩
      cases hp
      rfl
  | cons k ks ih =>
    cases l with
    | nil =>
      constructor
      · intro h; simp [dropKw] at h
      · rintro ⟨p, hl, hp⟩
        cases hp with
        | cons _ _ => simp at hl
    | cons c cs =>
      constructor
      · intro h
        unfold dropKw at h
        split at h
        · next he =>
          rcases ih.mp h with ⟨p, rfl, hp⟩
          exact ⟨c :: p, rfl, List.Forall₂.cons he hp⟩
        · exact absurd h (by simp)
      · rintro ⟨p, hl, hp⟩
        cases hp with
        | cons he hp' =>
          next b p' =>
            simp only [List.cons_append, List.cons.injEq] at hl
            rcases hl with ⟨rfl, hl2⟩
            unfold dropKw
            rw [if_pos he]
            exact ih.mpr ⟨p', hl2, hp'⟩

theorem charsCI_mem {kw p : List Char} (h : CharsCI kw p) {c : Char}
    (hc : c ∈ p) : ∃ k ∈ kw, eqCI k c = true := by
  induction h with
  | nil => simp at hc
  | cons hr ht ih =>
    rcases List.mem_cons.mp hc with rfl | hc'
    · exact ⟨_, List.mem_cons_self _ _, hr⟩
    · rcases ih hc' with ⟨k, hk, hke⟩
      exact ⟨k, List.mem_cons_of_mem _ hk, hke⟩

/-- A character that is case-insensitively one of `kw`'s letters has, after
lower-casing, that letter's lower-case form. -/
theorem asciiLower_of_eqCI {k c : Char} (h : eqCI k c = true) :
    asciiLower c = asciiLower k := by
  unfold eqCI at h
  exact (of_decide_eq_true h).symm

/-! ## Supporting lemmas: regex piece inversions -/

theorem parseWs1_some {l r : List Char} (h : parseWs1 l = some r) :
    ∃ w, l = w ++ r ∧ w ≠ [] ∧ ∀ c ∈ w, isWs c = true := by
  cases l with
  | nil => simp [parseWs1] at h
  | cons c cs =>
    have hdef : parseWs1 (c :: cs) =
        if isWs c then some ((c :: cs).dropWhile isWs) else none := rfl
    rw [hdef] at h
    split at h
    · next hc =>
      have h2 := Option.some.inj h
      subst h2
      refine ⟨(c :: cs).takeWhile isWs, ?_, ?_, ?_⟩
      · rw [List.takeWhile_append_dropWhile]
      · simp [List.takeWhile_cons, hc]
      · intro x hx
        exact List.mem_takeWhile_imp hx
    · simp at h

theorem parseDigits_some {l r : List Char} {n : Nat}
    (h : parseDigits l = some (r, n)) :
    ∃ ds, l = ds ++ r ∧ ds ≠ [] ∧ (∀ c ∈ ds, isDigitCh c = true) ∧
      n = digitsVal ds := by
  simp only [parseDigits] at h
  split at h
  · simp at h
  · next hne =>
    simp only [Option.some.injEq, Prod.mk.injEq] at h
    refine ⟨l.takeWhile isDigitCh, ?_, by simpa using hne, ?_, h.2.symm⟩
    · rw [h.1.symm, List.takeWhile_append_dropWhile]
    · intro x hx
      exact List.mem_takeWhile_imp hx

theorem tailWsSemi_chars {l : List Char} (h : tailWsSemi l = true) :
    ∀ c ∈ l, isWs c = true ∨ c = ';' := by
  unfold tailWsSemi at h
  intro c hc
  have hsplit : l.takeWhile isWs ++ l.dropWhile isWs = l :=
    List.takeWhile_append_dropWhile isWs l
  split at h
  · next hd =>
    left
    exact List.dropWhile_eq_nil_iff.mp hd c hc
  · next r hd =>
    rw [← hsplit, hd] at hc
    rcases List.mem_append.mp hc with hc1 | hc2
    · exact Or.inl (List.mem_takeWhile_imp hc1)
    · rcases List.mem_cons.mp hc2 with rfl | hc3
      · exact Or.inr rfl
      · exact Or.inl (by simpa using List.all_eq_true.mp h _ hc3)
  · simp at h

/-- Evaluation of the tail matcher on the two concrete tails produced by the
rewriter. -/
theorem tailWsSemi_semi {semi : List Char} (h : semi = [] ∨ semi = [';']) :
    tailWsSemi semi = true := by
  rcases h with rfl | rfl <;> decide

/-! ## Supporting lemmas: the scanner -/

theorem reScan_some_inv {α : Type} {f : List Char → Option α} :
    ∀ {prev : Bool} {l pre : List Char} {g : α},
      reScan f prev l = some (pre, g) →
      ∃ suf, l = pre ++ suf ∧ f suf = some g ∧
        (pre = [] → prev = false) ∧
        (∀ c, pre.getLast? = some c → isWordChar c = false) := by
  intro prev l
  induction l generalizing prev with
  | nil =>
    intro pre g h
    unfold reScan at h
    split at h
    · next g' hg =>
      simp only [Option.some.injEq, Prod.mk.injEq] at h
      obtain ⟨rfl, rfl⟩ := h
      refine ⟨[], rfl, ?_, fun _ => ?_, by simp⟩
      · cases prev
        · simpa using hg
        · simp at hg
      · cases prev
        · rfl
        · simp at hg
    · simp at h
  | cons c cs ih =>
    intro pre g h
    unfold reScan at h
    split at h
    · next g' hg =>
      simp only [Option.some.injEq, Prod.mk.injEq] at h
      obtain ⟨rfl, rfl⟩ := h
      refine ⟨c :: cs, rfl, ?_, fun _ => ?_, by simp⟩
      · cases prev
        · simpa using hg
        · simp at hg
      · cases prev
        · rfl
        · simp at hg
    · next hg =>
      simp only [Option.map_eq_some'] at h
      rcases h with ⟨⟨p', g''⟩, hrec, hmk⟩
      simp only [Prod.mk.injEq] at hmk
      rcases hmk with ⟨rfl, rfl⟩
      rcases ih hrec with ⟨suf, hsuf, hfs, hpr, hlast⟩
      refine ⟨suf, by simp [hsuf], hfs, by simp, ?_⟩
      intro x hx
      cases hpe : p' with
      | nil =>
        subst hpe
        simp only [List.getLast?_singleton, Option.some.injEq] at hx
        subst hx
        simpa using hpr rfl
      | cons y ys =>
        have hcc : (c :: p').getLast? = p'.getLast? := by
          rw [hpe, List.getLast?_cons_cons]
        rw [hcc] at hx
        exact hlast x hx

/-! ## Shape of text matched by the trailing-LIMIT regexes

A matched text starts with an L (either case), contains no further L and no C
at all: every other piece of those regexes consists of the letters of IMIT
and OFFSET, digits, whitespace, commas and semicolons.  This makes the
position of a match in a text unique, which drives both the strip lemmas and
the uniqueness of the scanner's result. -/

/-- Characters that can appear after the leading L of a matched text. -/
def CharOK (c : Char) : Prop := asciiLower c ≠ 'l' ∧ asciiLower c ≠ 'c'

theorem charOK_of_lower {c d : Char} (h : asciiLower c = d) (h1 : d ≠ 'l')
    (h2 : d ≠ 'c') : CharOK c := ⟨h ▸ h1, h ▸ h2⟩

theorem charOK_of_ws {c : Char} (h : isWs c = true) : CharOK c :=
  ⟨not_asciiLower_eq_of_ws h 'l' (by decide),
   not_asciiLower_eq_of_ws h 'c' (by decide)⟩

theorem charOK_of_digit {c : Char} (h : isDigitCh c = true) : CharOK c :=
  ⟨not_asciiLower_eq_of_digit h 'l' (by decide),
   not_asciiLower_eq_of_digit h 'c' (by decide)⟩

theorem charOK_semi : CharOK ';' := by
  constructor <;> decide

theorem charOK_comma : CharOK ',' := by
  constructor <;> decide

theorem tailWsSemi_charOK {r : List Char} (h : tailWsSemi r = true) :
    ∀ c ∈ r, CharOK c := by
  intro c hc
  rcases tailWsSemi_chars h c hc with hw | rfl
  · exact charOK_of_ws hw
  · exact charOK_semi

theorem dropKw_limit_inv {l r : List Char}
    (h : dropKw "LIMIT".data l = some r) :
    ∃ c0 c1 c2 c3 c4, l = c0 :: c1 :: c2 :: c3 :: c4 :: r ∧
      asciiLower c0 = 'l' ∧ asciiLower c1 = 'i' ∧ asciiLower c2 = 'm' ∧
      asciiLower c3 = 'i' ∧ asciiLower c4 = 't' := by
  rcases dropKw_some_iff.mp h with ⟨p, rfl, hp⟩
  unfold CharsCI at hp
  rw [show "LIMIT".data = ['L', 'I', 'M', 'I', 'T'] from rfl] at hp
  cases hp with | cons h0 hp =>
  cases hp with | cons h1 hp =>
  cases hp with | cons h2 hp =>
  cases hp with | cons h3 hp =>
  cases hp with | cons h4 hp =>
  cases hp
  refine ⟨_, _, _, _, _, rfl, ?_, ?_, ?_, ?_, ?_⟩
  · exact (asciiLower_of_eqCI h0).trans (by decide)
  · exact (asciiLower_of_eqCI h1).trans (by decide)
  · exact (asciiLower_of_eqCI h2).trans (by decide)
  · exact (asciiLower_of_eqCI h3).trans (by decide)
  · exact (asciiLower_of_eqCI h4).trans (by decide)

theorem dropKw_offset_inv {l r : List Char}
    (h : dropKw "OFFSET".data l = some r) :
    ∃ p, l = p ++ r ∧ p.length = 6 ∧ ∀ c ∈ p, CharOK c := by
  rcases dropKw_some_iff.mp h with ⟨p, rfl, hp⟩
  unfold CharsCI at hp
  rw [show "OFFSET".data = ['O', 'F', 'F', 'S', 'E', 'T'] from rfl] at hp
  cases hp with | cons h0 hp =>
  cases hp with | cons h1 hp =>
  cases hp with | cons h2 hp =>
  cases hp with | cons h3 hp =>
  cases hp with | cons h4 hp =>
  cases hp with | cons h5 hp =>
  cases hp
  refine ⟨_, rfl, rfl, ?_⟩
  intro c hc
  simp only [List.mem_cons, List.not_mem_nil, or_false] at hc
  rcases hc with rfl | rfl | rfl | rfl | rfl | rfl
  · exact charOK_of_lower (asciiLower_of_eqCI h0) (by decide) (by decide)
  · exact charOK_of_lower (asciiLower_of_eqCI h1) (by decide) (by decide)
  · exact charOK_of_lower (asciiLower_of_eqCI h2) (by decide) (by decide)
  · exact charOK_of_lower (asciiLower_of_eqCI h3) (by decide) (by decide)
  · exact charOK_of_lower (asciiLower_of_eqCI h4) (by decide) (by decide)
  · exact charOK_of_lower (asciiLower_of_eqCI h5) (by decide) (by decide)

theorem commaPart_some {r3 : List Char} {n : Nat} (h : commaPart r3 = some n) :
    (∀ c ∈ r3, CharOK c) ∧
      ∃ a b, r3 = a ++ ',' :: b ∧
        ∀ c ∈ b, isDigitCh c = true ∨ isWs c = true ∨ c = ';' := by
  unfold commaPart at h
  split at h
  · next r5 heq =>
    rcases hp : parseDigits (r5.dropWhile isWs) with _ | ⟨r7, n2⟩
    · rw [hp] at h; simp at h
    · rw [hp] at h
      simp only [Option.bind_eq_bind, Option.some_bind] at h
      have ht : tailWsSemi r7 = true := by
        by_contra hb
        rw [if_neg (by simpa using hb)] at h
        simp at h
      have hsplit3 : r3 = r3.takeWhile isWs ++ ',' :: r5 := by
        rw [← heq, List.takeWhile_append_dropWhile]
      have hsplit5 : r5 = r5.takeWhile isWs ++ r5.dropWhile isWs := by
        rw [List.takeWhile_append_dropWhile]
      rcases parseDigits_some hp with ⟨ds, hds, _, hdsd, _⟩
      have hb : ∀ c ∈ r5, isDigitCh c = true ∨ isWs c = true ∨ c = ';' := by
        intro c hc
        rw [hsplit5, hds] at hc
        rcases List.mem_append.mp hc with hc1 | hc2
        · exact Or.inr (Or.inl (List.mem_takeWhile_imp hc1))
        · rcases List.mem_append.mp hc2 with hc3 | hc4
          · exact Or.inl (hdsd c hc3)
          · rcases tailWsSemi_chars ht c hc4 with hw | rfl
            · exact Or.inr (Or.inl hw)
            · exact Or.inr (Or.inr rfl)
      constructor
      · intro c hc
        rw [hsplit3] at hc
        rcases List.mem_append.mp hc with hc1 | hc2
        · exact charOK_of_ws (List.mem_takeWhile_imp hc1)
        · rcases List.mem_cons.mp hc2 with rfl | hc3
          · exact charOK_comma
          · rcases hb c hc3 with hd | hw | rfl
            · exact charOK_of_digit hd
            · exact charOK_of_ws hw
            · exact charOK_semi
      · exact ⟨r3.takeWhile isWs, r5, hsplit3, hb⟩
  · simp at h

theorem offsetPart_some {r3 : List Char} {n : Nat}
    (h : offsetPart r3 = some n) : ∀ c ∈ r3, CharOK c := by
  unfold offsetPart at h
  rcases h1 : parseWs1 r3 with _ | r4
  · rw [h1] at h; simp at h
  rw [h1] at h
  simp only [Option.bind_eq_bind, Option.some_bind] at h
  rcases h2 : dropKw "OFFSET".data r4 with _ | r5
  · rw [h2] at h; simp at h
  rw [h2] at h
  simp only [Option.some_bind] at h
  rcases h3 : parseWs1 r5 with _ | r6
  · rw [h3] at h; simp at h
  rw [h3] at h
  simp only [Option.some_bind] at h
  rcases h4 : parseDigits r6 with _ | ⟨r7, n3⟩
  · rw [h4] at h; simp at h
  rw [h4] at h
  simp only [Option.some_bind] at h
  have ht : tailWsSemi r7 = true := by
    by_contra hb
    rw [if_neg (by simpa using hb)] at h
    simp at h
  rcases parseWs1_some h1 with ⟨w1, rfl, _, hw1⟩
  rcases dropKw_offset_inv h2 with ⟨p, rfl, _, hp⟩
  rcases parseWs1_some h3 with ⟨w2, rfl, _, hw2⟩
  rcases parseDigits_some h4 with ⟨ds, rfl, _, hds, _⟩
  intro c hc
  rcases List.mem_append.mp hc with hc1 | hc2
  · exact charOK_of_ws (hw1 c hc1)
  rcases List.mem_append.mp hc2 with hc3 | hc4
  · exact hp c hc3
  rcases List.mem_append.mp hc4 with hc5 | hc6
  · exact charOK_of_ws (hw2 c hc5)
  rcases List.mem_append.mp hc6 with hc7 | hc8
  · exact charOK_of_digit (hds c hc7)
  · rcases tailWsSemi_chars ht c hc8 with hw | rfl
    · exact charOK_of_ws hw
    · exact charOK_semi

/-- Shape of a text matched to the end by any of the trailing-LIMIT regexes:
a leading L (either case), no other L, no C at all. -/
def LimitShaped (l : List Char) : Prop :=
  ∃ hd tl, l = hd :: tl ∧ asciiLower hd = 'l' ∧
    (∀ c ∈ tl, asciiLower c ≠ 'l') ∧ (∀ c ∈ l, asciiLower c ≠ 'c')

/-- Common head of the three LIMIT matchers: the keyword, whitespace and the
first number group; everything before the remainder `r3` is benign. -/
theorem limitHead_inv {l r1 r2 r3 : List Char} {n1 : Nat}
    (h1 : dropKw "LIMIT".data l = some r1) (h2 : parseWs1 r1 = some r2)
    (h3 : parseDigits r2 = some (r3, n1)) :
    ∃ c0 mid, l = c0 :: (mid ++ r3) ∧ asciiLower c0 = 'l' ∧
      ∀ c ∈ mid, CharOK c := by
  rcases dropKw_limit_inv h1 with ⟨c0, c1, c2, c3, c4, rfl, e0, e1, e2, e3, e4⟩
  rcases parseWs1_some h2 with ⟨w, rfl, _, hw⟩
  rcases parseDigits_some h3 with ⟨ds, rfl, _, hds, _⟩
  refine ⟨c0, c1 :: c2 :: c3 :: c4 :: (w ++ ds), by simp, e0, ?_⟩
  intro c hc
  simp only [List.mem_cons] at hc
  rcases hc with rfl | rfl | rfl | rfl | hc
  · exact charOK_of_lower e1 (by decide) (by decide)
  · exact charOK_of_lower e2 (by decide) (by decide)
  · exact charOK_of_lower e3 (by decide) (by decide)
  · exact charOK_of_lower e4 (by decide) (by decide)
  · rcases List.mem_append.mp hc with hc1 | hc2
    · exact charOK_of_ws (hw c hc1)
    · exact charOK_of_digit (hds c hc2)

theorem limitShaped_of_head {l : List Char} {c0 : Char} {mid r3 : List Char}
    (hl : l = c0 :: (mid ++ r3)) (h0 : asciiLower c0 = 'l')
    (hmid : ∀ c ∈ mid, CharOK c) (hr3 : ∀ c ∈ r3, CharOK c) :
    LimitShaped l := by
  refine ⟨c0, mid ++ r3, hl, h0, ?_, ?_⟩
  · intro c hc
    rcases List.mem_append.mp hc with hc1 | hc2
    · exact (hmid c hc1).1
    · exact (hr3 c hc2).1
  · intro c hc
    rw [hl] at hc
    rcases List.mem_cons.mp hc with rfl | hc2
    · rw [h0]; decide
    · rcases List.mem_append.mp hc2 with hc3 | hc4
      · exact (hmid c hc3).2
      · exact (hr3 c hc4).2

theorem stdMatchAt_shaped {l : List Char} (h : stdMatchAt l = true) :
    LimitShaped l := by
  unfold stdMatchAt at h
  rcases h1 : dropKw "LIMIT".data l with _ | r1
  · rw [h1] at h; simp at h
  rw [h1] at h
  simp only [Option.bind_eq_bind, Option.some_bind] at h
  rcases h2 : parseWs1 r1 with _ | r2
  · rw [h2] at h; simp at h
  rw [h2] at h
  simp only [Option.some_bind] at h
  rcases h3 : parseDigits r2 with _ | ⟨r3, n1⟩
  · rw [h3] at h; simp at h
  rw [h3] at h
  simp only [Option.some_bind] at h
  rcases limitHead_inv h1 h2 h3 with ⟨c0, mid, hl, h0, hmid⟩
  by_cases ho : (offsetPart r3).isSome
  · rcases Option.isSome_iff_exists.mp ho with ⟨n3, hn3⟩
    exact limitShaped_of_head hl h0 hmid (offsetPart_some hn3)
  · rw [if_neg (by simpa using ho)] at h
    by_cases ht : tailWsSemi r3 = true
    · exact limitShaped_of_head hl h0 hmid (tailWsSemi_charOK ht)
    · rw [if_neg (by simpa using ht)] at h
      simp at h

theorem mysqlMatchAt_shaped {l : List Char} (h : mysqlMatchAt l = true) :
    LimitShaped l ∧
      ∃ a b, l = a ++ ',' :: b ∧
        ∀ c ∈ b, isDigitCh c = true ∨ isWs c = true ∨ c = ';' := by
  unfold mysqlMatchAt at h
  rcases h1 : dropKw "LIMIT".data l with _ | r1
  · rw [h1] at h; simp at h
  rw [h1] at h
  simp only [Option.bind_eq_bind, Option.some_bind] at h
  rcases h2 : parseWs1 r1 with _ | r2
  · rw [h2] at h; simp at h
  rw [h2] at h
  simp only [Option.some_bind] at h
  rcases h3 : parseDigits r2 with _ | ⟨r3, n1⟩
  · rw [h3] at h; simp at h
  rw [h3] at h
  simp only [Option.some_bind] at h
  rcases Option.isSome_iff_exists.mp h with ⟨n2, hn2⟩
  rcases limitHead_inv h1 h2 h3 with ⟨c0, mid, hl, h0, hmid⟩
  rcases commaPart_some hn2 with ⟨hr3, a, b, hab, hb⟩
  constructor
  · exact limitShaped_of_head hl h0 hmid hr3
  · refine ⟨c0 :: (mid ++ a), b, ?_, hb⟩
    rw [hl, hab]
    simp

theorem limitNums_shaped {l : List Char} {g : Nat × Option Nat × Option Nat}
    (h : limitNums l = some g) : LimitShaped l := by
  unfold limitNums at h
  rcases h1 : dropKw "LIMIT".data l with _ | r1
  · rw [h1] at h; simp at h
  rw [h1] at h
  simp only [Option.bind_eq_bind, Option.some_bind] at h
  rcases h2 : parseWs1 r1 with _ | r2
  · rw [h2] at h; simp at h
  rw [h2] at h
  simp only [Option.some_bind] at h
  rcases h3 : parseDigits r2 with _ | ⟨r3, n1⟩
  · rw [h3] at h; simp at h
  rw [h3] at h
  simp only [Option.some_bind] at h
  rcases limitHead_inv h1 h2 h3 with ⟨c0, mid, hl, h0, hmid⟩
  rcases hcp : commaPart r3 with _ | n2
  · rw [hcp] at h
    rcases hop : offsetPart r3 with _ | n3
    · rw [hop] at h
      by_cases ht : tailWsSemi r3 = true
      · exact limitShaped_of_head hl h0 hmid (tailWsSemi_charOK ht)
      · rw [if_neg (by simpa using ht)] at h
        simp at h
    · exact limitShaped_of_head hl h0 hmid (offsetPart_some hop)
  · exact limitShaped_of_head hl h0 hmid (commaPart_some hcp).1

/-! ## Scanner lemmas: a match at a known position, and absence of matches -/

/-- When the matcher matches the suffix `m` and the prefix `b` before it ends
in a non-word character (the word boundary), the leftmost-match scan finds
exactly that match: no earlier position can match because a matched text has
its unique L at the front, while any longer suffix contains `m`'s leading L
in its interior. -/
theorem reScan_append {α : Type} {f : List Char → Option α}
    (hshape : ∀ s (a : α), f s = some a → LimitShaped s)
    {m : List Char} {g : α} (hm : f m = some g) :
    ∀ (b : List Char) (prev : Bool), (b = [] → prev = false) →
      (∀ c, b.getLast? = some c → isWordChar c = false) →
      reScan f prev (b ++ m) = some (b, g) := by
  have hmshape := hshape m g hm
  rcases hmshape with ⟨hd, tl, hm_eq, hhd, _, _⟩
  intro b
  induction b with
  | nil =>
    intro prev hprev _
    rw [hprev rfl]
    rw [List.nil_append, hm_eq]
    unfold reScan
    rw [← hm_eq]
    simp [hm]
  | cons c b' ih =>
    intro prev hprev hlast
    have hnone : (if prev then none else f (c :: (b' ++ m))) = none := by
      cases prev
      · simp only [if_neg Bool.false_ne_true]
        rcases hf : f (c :: (b' ++ m)) with _ | a
        · rfl
        · exfalso
          rcases hshape _ _ hf with ⟨hd', tl', heq, _, htl', _⟩
          obtain ⟨rfl, rfl⟩ : c = hd' ∧ b' ++ m = tl' := by simpa using heq
          have hmem : hd ∈ b' ++ m := by
            rw [hm_eq]
            exact List.mem_append.mpr (Or.inr (List.mem_cons_self _ _))
          exact htl' hd hmem hhd
      · simp
    show reScan f prev ((c :: b') ++ m) = some (c :: b', g)
    rw [List.cons_append]
    unfold reScan
    rw [hnone]
    have hrec := ih (isWordChar c) ?_ ?_
    · rw [hrec]
      rfl
    · intro hb'
      subst hb'
      have := hlast c (by simp)
      simpa using this
    · intro x hx
      apply hlast
      cases b' with
      | nil => simp at hx
      | cons y ys => rw [List.getLast?_cons_cons]; exact hx

/-- When no suffix matches, the scan fails. -/
theorem reScan_none {α : Type} {f : List Char → Option α} :
    ∀ {l : List Char} {prev : Bool},
      (∀ suf : List Char, suf <:+ l → f suf = none) →
      reScan f prev l = none := by
  intro l
  induction l with
  | nil =>
    intro prev h
    unfold reScan
    rw [h [] List.suffix_rfl]
    cases prev <;> rfl
  | cons c cs ih =>
    intro prev h
    unfold reScan
    rw [h (c :: cs) List.suffix_rfl]
    have : reScan f (isWordChar c) cs = none :=
      ih fun suf hsuf => h suf (hsuf.trans (List.suffix_cons c cs))
    cases prev <;> simp [this]

/-- Two suffixes of the same list are comparable. -/
theorem suffix_of_suffix_le {s1 s2 W : List Char} (h1 : s1 <:+ W)
    (h2 : s2 <:+ W) (hl : s1.length ≤ s2.length) : s1 <:+ s2 := by
  have e1 := List.suffix_iff_eq_drop.mp h1
  have e2 := List.suffix_iff_eq_drop.mp h2
  have hlen2 := h2.length_le
  rw [e1, show W.length - s1.length =
    (W.length - s2.length) + (s2.length - s1.length) from by omega,
    ← List.drop_drop, ← e2]
  exact List.drop_suffix _ _

/-- A suffix of `c :: t` no longer than `t` is a suffix of `t`. -/
theorem suffix_of_suffix_cons {s : List Char} {c : Char} {t : List Char}
    (h : s <:+ c :: t) (hl : s.length ≤ t.length) : s <:+ t :=
  suffix_of_suffix_le h (List.suffix_cons c t) (by simpa using hl)

/-! ## Evaluating the matchers on the appended clause -/

theorem ws_of_digit_false {c : Char} (h : isDigitCh c = true) :
    isWs c = false := by
  cases hw : isWs c
  · rfl
  · exfalso
    have h4 : c = ' ' ∨ c = '\t' ∨ c = '\r' ∨ c = '\n' := by
      revert hw; unfold isWs Char.isWhitespace
      simp only [Bool.or_eq_true, decide_eq_true_eq]
      tauto
    rcases h4 with rfl | rfl | rfl | rfl <;> simp [isDigitCh] at h

theorem natChars_head_digit (n : Nat) :
    ∃ c rest, natChars n = c :: rest ∧ isDigitCh c = true := by
  cases hn : natChars n with
  | nil => exact absurd hn (natChars_ne_nil n)
  | cons c rest =>
    exact ⟨c, rest, rfl, natChars_digits (hn ▸ List.mem_cons_self c rest)⟩

theorem dropWhile_ws_natChars (n : Nat) (X : List Char) :
    (natChars n ++ X).dropWhile isWs = natChars n ++ X := by
  apply dropWhile_eq_self_of_head
  intro c hc
  rcases natChars_head_digit n with ⟨c0, rest, heq, hd0⟩
  rw [heq] at hc
  simp only [List.cons_append, List.head?_cons, Option.some.injEq] at hc
  subst hc
  exact ws_of_digit_false hd0

theorem parseDigits_natChars {n : Nat} {X : List Char}
    (hX : ∀ c, X.head? = some c → isDigitCh c = false) :
    parseDigits (natChars n ++ X) = some (X, n) := by
  have hspan := span_append (p := isDigitCh) (a := natChars n) (b := X)
    (fun c hc => natChars_digits hc) hX
  simp only [parseDigits, hspan.1, hspan.2]
  rw [if_neg (by simpa using natChars_ne_nil n)]
  rw [digitsVal_natChars]

theorem semi_head_not_digit {semi : List Char}
    (h : semi = [] ∨ semi = [';']) :
    ∀ c, semi.head? = some c → isDigitCh c = false := by
  rcases h with rfl | rfl
  · intro c hc; simp at hc
  · intro c hc
    simp only [List.head?_cons, Option.some.injEq] at hc
    subst hc
    decide

theorem parseWs1_space (rest : List Char) :
    parseWs1 (' ' :: rest) = some (rest.dropWhile isWs) := rfl

theorem dropKw_LIMIT_lit (rest : List Char) :
    dropKw "LIMIT".data ('L' :: 'I' :: 'M' :: 'I' :: 'T' :: rest) =
      some rest := rfl

theorem dropKw_OFFSET_lit (rest : List Char) :
    dropKw "OFFSET".data ('O' :: 'F' :: 'F' :: 'S' :: 'E' :: 'T' :: rest) =
      some rest := rfl

/-- The remainder of the appended clause after `LIMIT`, the space and the
limit digits: the OFFSET chain when the offset is positive, else just the
optional semicolon. -/
def clauseTail (O : Nat) (semi : List Char) : List Char :=
  if O > 0 then
    ' ' :: 'O' :: 'F' :: 'F' :: 'S' :: 'E' :: 'T' :: ' ' :: (natChars O ++ semi)
  else semi

theorem limitClause_append (L O : Nat) (semi : List Char) :
    limitClause L O ++ semi =
      'L' :: 'I' :: 'M' :: 'I' :: 'T' :: ' ' ::
        (natChars L ++ clauseTail O semi) := by
  unfold limitClause clauseTail
  by_cases hO : O > 0
  · rw [if_pos hO, if_pos hO]
    simp
  · rw [if_neg hO, if_neg hO]
    simp

theorem clauseTail_head_not_digit {O : Nat} {semi : List Char}
    (hs : semi = [] ∨ semi = [';']) :
    ∀ c, (clauseTail O semi).head? = some c → isDigitCh c = false := by
  unfold clauseTail
  split
  · intro c hc
    simp only [List.head?_cons, Option.some.injEq] at hc
    subst hc
    decide
  · exact semi_head_not_digit hs

theorem commaPart_semi {semi : List Char} (hs : semi = [] ∨ semi = [';']) :
    commaPart semi = none := by
  rcases hs with rfl | rfl <;> rfl

theorem offsetPart_semi {semi : List Char} (hs : semi = [] ∨ semi = [';']) :
    offsetPart semi = none := by
  rcases hs with rfl | rfl <;> rfl

theorem commaPart_clauseTail {O : Nat} {semi : List Char}
    (hs : semi = [] ∨ semi = [';']) : commaPart (clauseTail O semi) = none := by
  unfold clauseTail
  split
  · rfl
  · exact commaPart_semi hs

theorem offsetPart_clauseTail {O : Nat} {semi : List Char}
    (hs : semi = [] ∨ semi = [';']) :
    offsetPart (clauseTail O semi) = if 0 < O then some O else none := by
  unfold clauseTail
  by_cases hO : O > 0
  · rw [if_pos hO, if_pos hO]
    unfold offsetPart
    rw [parseWs1_space]
    simp only [Option.bind_eq_bind, Option.some_bind]
    rw [show (('O' :: 'F' :: 'F' :: 'S' :: 'E' :: 'T' :: ' ' ::
        (natChars O ++ semi)).dropWhile isWs) =
        'O' :: 'F' :: 'F' :: 'S' :: 'E' :: 'T' :: ' ' ::
          (natChars O ++ semi) from rfl]
    rw [dropKw_OFFSET_lit]
    simp only [Option.some_bind]
    rw [parseWs1_space, dropWhile_ws_natChars]
    simp only [Option.some_bind]
    rw [parseDigits_natChars (semi_head_not_digit hs)]
    simp only [Option.some_bind]
    rw [if_pos (tailWsSemi_semi hs)]
  · rw [if_neg hO, if_neg hO]
    exact offsetPart_semi hs

theorem tailWsSemi_clauseTail {O : Nat} {semi : List Char}
    (hs : semi = [] ∨ semi = [';']) (hO : ¬ O > 0) :
    tailWsSemi (clauseTail O semi) = true := by
  unfold clauseTail
  rw [if_neg hO]
  exact tailWsSemi_semi hs

theorem stdMatchAt_clause {L O : Nat} {semi : List Char}
    (hs : semi = [] ∨ semi = [';']) :
    stdMatchAt (limitClause L O ++ semi) = true := by
  rw [limitClause_append]
  unfold stdMatchAt
  rw [dropKw_LIMIT_lit]
  simp only [Option.bind_eq_bind, Option.some_bind]
  rw [parseWs1_space, dropWhile_ws_natChars]
  simp only [Option.some_bind]
  rw [parseDigits_natChars (clauseTail_head_not_digit hs)]
  simp only [Option.some_bind]
  rw [offsetPart_clauseTail hs]
  by_cases hO : 0 < O
  · rw [if_pos hO]
    rfl
  · rw [if_neg hO]
    simp only [Option.isSome_none, Bool.false_eq_true, if_false]
    rw [if_pos (tailWsSemi_clauseTail hs hO)]
    rfl

theorem limitNums_clause {L O : Nat} {semi : List Char}
    (hs : semi = [] ∨ semi = [';']) :
    limitNums (limitClause L O ++ semi) =
      some (L, none, if 0 < O then some O else none) := by
  rw [limitClause_append]
  unfold limitNums
  rw [dropKw_LIMIT_lit]
  simp only [Option.bind_eq_bind, Option.some_bind]
  rw [parseWs1_space, dropWhile_ws_natChars]
  simp only [Option.some_bind]
  rw [parseDigits_natChars (clauseTail_head_not_digit hs)]
  simp only [Option.some_bind]
  rw [commaPart_clauseTail hs, offsetPart_clauseTail hs]
  by_cases hO : 0 < O
  · simp only [if_pos hO]
  · simp only [if_neg hO]
    rw [if_pos (tailWsSemi_clauseTail hs hO)]

theorem bmatch_shaped_std :
    ∀ (s : List Char) (a : Unit), bmatch stdMatchAt s = some a →
      LimitShaped s := by
  intro s a h
  unfold bmatch at h
  split at h
  · next hm => exact stdMatchAt_shaped hm
  · simp at h

/-- The leftmost match of the trailing-LIMIT analysis regex on a text that
ends with a freshly appended clause is exactly that clause. -/
theorem findLimitMatch_append (B : List Char) (L O : Nat) {semi : List Char}
    (hs : semi = [] ∨ semi = [';']) :
    findLimitMatch (B ++ ' ' :: (limitClause L O ++ semi)) =
      some (L, none, if 0 < O then some O else none) := by
  unfold findLimitMatch
  have hsc := reScan_append (f := limitNums)
    (fun s a h => limitNums_shaped h) (limitNums_clause (L := L) (O := O) hs)
    (B ++ [' ']) false (by simp) ?_
  · rw [show B ++ ' ' :: (limitClause L O ++ semi) =
      (B ++ [' ']) ++ (limitClause L O ++ semi) from by simp]
    rw [hsc]
    rfl
  · intro c hc
    rw [List.getLast?_concat] at hc
    rcases Option.some.inj hc with rfl
    rfl

/-- Stripping the standard trailing-LIMIT regex from such a text removes
exactly the appended clause. -/
theorem replaceEnd_std_append (B : List Char) (L O : Nat) {semi : List Char}
    (hs : semi = [] ∨ semi = [';']) :
    replaceEnd stdMatchAt (B ++ ' ' :: (limitClause L O ++ semi)) =
      B ++ [' '] := by
  unfold replaceEnd
  have hm : bmatch stdMatchAt (limitClause L O ++ semi) = some () := by
    unfold bmatch
    rw [if_pos (stdMatchAt_clause hs)]
  have hsc := reScan_append (f := bmatch stdMatchAt) bmatch_shaped_std hm
    (B ++ [' ']) false (by simp) ?_
  · rw [show B ++ ' ' :: (limitClause L O ++ semi) =
      (B ++ [' ']) ++ (limitClause L O ++ semi) from by simp]
    rw [hsc]
  · intro c hc
    rw [List.getLast?_concat] at hc
    rcases Option.some.inj hc with rfl
    rfl

/-! ## The MySQL-style strip never fires on a text ending in a fresh clause -/

theorem mysql_no_suffix_match {W E : List Char} (hE : E <:+ W)
    (hcomma : ',' ∉ E) (hL : 'L' ∈ E) :
    ∀ suf, suf <:+ W → bmatch mysqlMatchAt suf = none := by
  intro suf hsuf
  unfold bmatch
  cases hm : mysqlMatchAt suf
  · simp
  · exfalso
    rcases (mysqlMatchAt_shaped hm).2 with ⟨a, b, hab, hb⟩
    have hcb : (',' :: b) <:+ W := by
      refine List.IsSuffix.trans ?_ hsuf
      exact ⟨a, hab.symm⟩
    by_cases hlen : E.length ≤ b.length
    · have hEb : E <:+ b :=
        suffix_of_suffix_cons
          (suffix_of_suffix_le hE hcb (by simp; omega)) hlen
      have hLb : 'L' ∈ b := hEb.subset hL
      rcases hb 'L' hLb with h | h | h <;> simp [isDigitCh, isWs] at h
    · have hbE : (',' :: b) <:+ E :=
        suffix_of_suffix_le hcb hE (by simp; omega)
      exact hcomma (hbE.subset (List.mem_cons_self _ _))

theorem comma_not_in_appended (L O : Nat) {semi : List Char}
    (hs : semi = [] ∨ semi = [';']) :
    ',' ∉ ' ' :: (limitClause L O ++ semi) := by
  rw [limitClause_append]
  intro hmem
  simp only [List.mem_cons] at hmem
  rcases hmem with h | h | h | h | h | h | h | h
  · exact absurd h (by decide)
  · exact absurd h (by decide)
  · exact absurd h (by decide)
  · exact absurd h (by decide)
  · exact absurd h (by decide)
  · exact absurd h (by decide)
  · exact absurd h (by decide)
  · rcases List.mem_append.mp h with h1 | h2
    · exact absurd (natChars_digits h1) (by decide)
    · unfold clauseTail at h2
      split at h2
      · simp only [List.mem_cons] at h2
        rcases h2 with h | h | h | h | h | h | h | h | h
        all_goals first
        | exact absurd h (by decide)
        | (rcases List.mem_append.mp h with h3 | h4
           · exact absurd (natChars_digits h3) (by decide)
           · rcases hs with rfl | rfl
             · simp at h4
             · simp only [List.mem_singleton] at h4
               exact absurd h4 (by decide))
      · rcases hs with rfl | rfl
        · simp at h2
        · simp only [List.mem_singleton] at h2
          exact absurd h2 (by decide)

theorem lchar_in_appended (L O : Nat) (semi : List Char) :
    'L' ∈ ' ' :: (limitClause L O ++ semi) := by
  rw [limitClause_append]
  simp

/-- The MySQL-style strip is the identity on a text ending in a fresh
clause. -/
theorem replaceEnd_mysql_appended (B : List Char) (L O : Nat)
    {semi : List Char} (hs : semi = [] ∨ semi = [';']) :
    replaceEnd mysqlMatchAt (B ++ ' ' :: (limitClause L O ++ semi)) =
      B ++ ' ' :: (limitClause L O ++ semi) := by
  unfold replaceEnd
  rw [reScan_none (mysql_no_suffix_match (E := ' ' :: (limitClause L O ++ semi))
    (List.suffix_append B _) (comma_not_in_appended L O hs)
    (lchar_in_appended L O semi))]

/-! ## Keyword facts preserved by the rewriter's text surgery -/

theorem dropWhile_ws_append_of_head {w X : List Char}
    (hw : ∀ c ∈ w, isWs c = true)
    (hX : ∀ c, X.head? = some c → isWs c = false) :
    (w ++ X).dropWhile isWs = X := by
  rw [List.dropWhile_append]
  rw [show (w.dropWhile isWs).isEmpty = true from by
    simp [List.dropWhile_eq_nil_iff.mpr hw]]
  simp [dropWhile_eq_self_of_head hX]

theorem dropTrailWs_append (X k : List Char) :
    dropTrailWs (X ++ k) =
      if dropTrailWs k = [] then dropTrailWs X else X ++ dropTrailWs k := by
  unfold dropTrailWs
  rw [List.reverse_append, List.dropWhile_append]
  by_cases hk : (k.reverse.dropWhile isWs).isEmpty = true
  · rw [if_pos hk]
    rw [List.isEmpty_iff] at hk
    rw [if_pos (by simp [hk])]
  · rw [if_neg hk]
    rw [if_neg (by
      simp only [List.reverse_eq_nil_iff]
      intro hcon
      exact hk (List.isEmpty_iff.mpr hcon))]
    rw [List.reverse_append, List.reverse_reverse]

theorem dropTrailWs_eq_self_of_getLast {X : List Char}
    (h : ∀ c, X.getLast? = some c → isWs c = false) : dropTrailWs X = X := by
  unfold dropTrailWs
  rw [dropWhile_eq_self_of_head, List.reverse_reverse]
  intro c hc
  exact h c (by rwa [List.getLast?_eq_head?_reverse])

theorem getLast?_append_of_ne_nil {a b : List Char} (hb : b ≠ []) :
    (a ++ b).getLast? = b.getLast? := by
  rw [List.getLast?_append]
  cases hbl : b.getLast? with
  | none => exact absurd (List.getLast?_eq_none_iff.mp hbl) hb
  | some c => rfl

/-- Characters standing case-insensitively for a letters-only keyword are
word characters and not whitespace. -/
theorem kwImage_word {k c : Char} (h : eqCI k c = true)
    (hk : 97 ≤ (asciiLower k).toNat ∧ (asciiLower k).toNat ≤ 122) :
    isWordChar c = true ∧ isWs c = false := by
  have hl := asciiLower_of_eqCI h
  constructor
  · exact isWordChar_of_asciiLower_letter (congrArg Char.toNat hl) hk.1 hk.2
  · cases hw : isWs c
    · rfl
    · exfalso
      exact not_asciiLower_eq_of_ws hw (asciiLower k) (by omega) hl

/-- The letter bound for all leading keywords of the classifier. -/
def KwLetters (kw : String) : Prop :=
  kw.data ≠ [] ∧
    ∀ k ∈ kw.data, 97 ≤ (asciiLower k).toNat ∧ (asciiLower k).toNat ≤ 122

theorem kwLetters_select : KwLetters "SELECT" := by
  constructor
  · decide
  · decide

theorem kwLetters_with : KwLetters "WITH" := by
  constructor
  · decide
  · decide

theorem charsCI_word {kw : String} (hkw : KwLetters kw) {p : List Char}
    (hp : CharsCI kw.data p) :
    ∀ c ∈ p, isWordChar c = true ∧ isWs c = false := by
  intro c hc
  rcases charsCI_mem hp hc with ⟨k, hk, hke⟩
  exact kwImage_word hke (hkw.2 k hk)

theorem testLeadKw_inv {kw : String} {l : List Char}
    (h : testLeadKw kw l = true) :
    ∃ w p r, l = w ++ (p ++ r) ∧ (∀ c ∈ w, isWs c = true) ∧
      CharsCI kw.data p ∧ bdryB r = true := by
  unfold testLeadKw at h
  rcases hdk : dropKw kw.data (l.dropWhile isWs) with _ | rest
  · rw [hdk] at h; simp at h
  · rw [hdk] at h
    rcases dropKw_some_iff.mp hdk with ⟨p, hsplit, hp⟩
    exact ⟨l.takeWhile isWs, p, rest,
      by rw [← hsplit, List.takeWhile_append_dropWhile],
      fun c hc => List.mem_takeWhile_imp hc, hp, h⟩

theorem testLeadKw_intro {kw : String} (hkw : KwLetters kw) {w p r : List Char}
    (hw : ∀ c ∈ w, isWs c = true) (hp : CharsCI kw.data p)
    (hr : bdryB r = true) : testLeadKw kw (w ++ (p ++ r)) = true := by
  unfold testLeadKw
  have hphead : ∀ c, (p ++ r).head? = some c → isWs c = false := by
    intro c hc
    cases p with
    | nil =>
      have hlen : kw.data.length = 0 := by
        simpa using List.Forall₂.length_eq hp
      exact absurd (List.length_eq_zero.mp hlen) hkw.1
    | cons x xs =>
      simp only [List.cons_append, List.head?_cons, Option.some.injEq] at hc
      subst hc
      exact (charsCI_word hkw hp _ (List.mem_cons_self _ _)).2
  rw [dropWhile_ws_append_of_head hw hphead]
  rw [dropKw_some_iff.mpr ⟨p, rfl, hp⟩]
  exact hr

theorem testLeadKw_headCI {kw : String} (hkw : KwLetters kw) {l : List Char}
    (h : testLeadKw kw l = true) :
    ∃ k c, kw.data.head? = some k ∧ (l.dropWhile isWs).head? = some c ∧
      asciiLower c = asciiLower k := by
  unfold testLeadKw at h
  rcases hdk : dropKw kw.data (l.dropWhile isWs) with _ | rest
  · rw [hdk] at h; simp at h
  · rcases dropKw_some_iff.mp hdk with ⟨p, hsplit, hp⟩
    cases hkd : kw.data with
    | nil => exact absurd hkd hkw.1
    | cons k ks =>
      rw [hkd] at hp
      cases p with
      | nil => cases hp
      | cons c cs =>
        cases hp with
        | cons hke hp' =>
          refine ⟨k, c, rfl, ?_, asciiLower_of_eqCI hke⟩
          rw [hsplit]
          rfl

theorem getLast?_of_suffix {s a : List Char} (hs : s <:+ a) (hne : s ≠ []) :
    s.getLast? = a.getLast? := by
  rcases hs with ⟨t, rfl⟩
  exact (getLast?_append_of_ne_nil hne).symm

theorem head?_of_dropTrailWs_ne {X : List Char} (h : dropTrailWs X ≠ []) :
    (dropTrailWs X).head? = X.head? := by
  rcases dropTrailWs_prefix_self X with ⟨t, ht⟩
  conv_rhs => rw [← ht]
  rw [List.head?_append_of_ne_nil _ h]

theorem head?_of_dropWhile_suffix {X : List Char} (h : X.dropWhile isWs ≠ []) :
    (X.dropWhile isWs).getLast? = X.getLast? :=
  getLast?_of_suffix (dropWhile_suffix_self isWs X) h

/-- Specification of the word-bounded-occurrence scan. -/
theorem containsWordAux_iff {kw : List Char} (hkw : kw ≠ []) :
    ∀ {l : List Char} {prev : Bool},
      containsWordAux kw prev l = true ↔
        ∃ a p b, l = a ++ (p ++ b) ∧ CharsCI kw p ∧
          ((a = [] ∧ prev = false) ∨
            ∃ c, a.getLast? = some c ∧ isWordChar c = false) ∧
          bdryB b = true := by
  intro l
  induction l with
  | nil =>
    intro prev
    constructor
    · intro h
      simp [containsWordAux] at h
    · rintro ⟨a, p, b, hl, hp, _, _⟩
      have hpne : p ≠ [] := by
        intro hcon
        subst hcon
        cases hp
        exact hkw rfl
      rcases List.append_eq_nil.mp hl.symm with ⟨rfl, h2⟩
      rcases List.append_eq_nil.mp h2 with ⟨rfl, rfl⟩
      exact absurd rfl hpne
  | cons c cs ih =>
    intro prev
    constructor
    · intro h
      unfold containsWordAux at h
      rcases Bool.or_eq_true _ _ |>.mp h with h1 | h2
      · rcases Bool.and_eq_true _ _ |>.mp h1 with ⟨hprev, hmatch⟩
        rcases hdk : dropKw kw (c :: cs) with _ | rest
        · rw [hdk] at hmatch; simp at hmatch
        · rw [hdk] at hmatch
          rcases dropKw_some_iff.mp hdk with ⟨p, hsplit, hp⟩
          refine ⟨[], p, rest, by simpa using hsplit, hp,
            Or.inl ⟨rfl, by simpa using hprev⟩, hmatch⟩
      · rcases ih.mp h2 with ⟨a, p, b, hl, hp, hguard, hb⟩
        refine ⟨c :: a, p, b, by simp [hl], hp, ?_, hb⟩
        rcases hguard with ⟨rfl, hprev⟩ | ⟨x, hx, hxw⟩
        · exact Or.inr ⟨c, by simp, by simpa using hprev⟩
        · refine Or.inr ⟨x, ?_, hxw⟩
          cases a with
          | nil => simp at hx
          | cons y ys => rw [List.getLast?_cons_cons]; exact hx
    · rintro ⟨a, p, b, hl, hp, hguard, hb⟩
      unfold containsWordAux
      apply Bool.or_eq_true _ _ |>.mpr
      cases a with
      | nil =>
        left
        rcases hguard with ⟨_, rfl⟩ | ⟨x, hx, _⟩
        · simp only [List.nil_append] at hl
          rw [dropKw_some_iff.mpr ⟨p, hl, hp⟩]
          simpa using hb
        · simp at hx
      | cons y ys =>
        right
        simp only [List.cons_append, List.cons.injEq] at hl
        rcases hl with ⟨rfl, rfl⟩
        apply ih.mpr
        refine ⟨ys, p, b, rfl, hp, ?_, hb⟩
        rcases hguard with ⟨hcon, _⟩ | ⟨x, hx, hxw⟩
        · simp at hcon
        · cases ys with
          | nil =>
            simp only [List.getLast?_singleton, Option.some.injEq] at hx
            subst hx
            exact Or.inl ⟨rfl, by simpa using hxw⟩
          | cons z zs =>
            rw [List.getLast?_cons_cons] at hx
            exact Or.inr ⟨x, hx, hxw⟩

theorem bdryB_iff_head {l : List Char} :
    bdryB l = true ↔ ∀ c, l.head? = some c → isWordChar c = false := by
  cases l with
  | nil => simp [bdryB]
  | cons c cs =>
    simp only [bdryB, List.head?_cons, Bool.not_eq_true']
    constructor
    · intro h x hx
      rcases Option.some.inj hx with rfl
      exact h
    · intro h
      exact h c rfl

theorem charsCI_ne_nil {kw : String} (hkw : KwLetters kw) {p : List Char}
    (hp : CharsCI kw.data p) : p ≠ [] := by
  intro hcon
  subst hcon
  have hlen : kw.data.length = 0 := by simpa using List.Forall₂.length_eq hp
  exact hkw.1 (List.length_eq_zero.mp hlen)

theorem charsCI_head {kw : String} (hkw : KwLetters kw) {p : List Char}
    (hp : CharsCI kw.data p) :
    ∃ k c cs, kw.data.head? = some k ∧ p = c :: cs ∧ eqCI k c = true := by
  cases hkd : kw.data with
  | nil => exact absurd hkd hkw.1
  | cons k ks =>
    rw [hkd] at hp
    cases p with
    | nil => cases hp
    | cons c cs =>
      cases hp with
      | cons hke _ => exact ⟨k, c, cs, rfl, rfl, hke⟩

/-- Rebuild a leading-keyword match after trimming `w ++ (p ++ k)`: the
whitespace part, the keyword image, and a remainder opening at a word
boundary. -/
theorem testLeadKw_rebuild {kw : String} (hkw : KwLetters kw)
    {w p k : List Char} (hw : ∀ c ∈ w, isWs c = true)
    (hp : CharsCI kw.data p) (hk : bdryB k = true) :
    testLeadKw kw (trimList (w ++ (p ++ k))) = true := by
  have hpne : p ≠ [] := charsCI_ne_nil hkw hp
  have hphead : ∀ c, (p ++ k).head? = some c → isWs c = false := by
    intro c hc
    rw [List.head?_append_of_ne_nil _ hpne] at hc
    exact (charsCI_word hkw hp c (List.mem_of_mem_head? (by simp [hc]))).2
  have hplast : ∀ c, p.getLast? = some c → isWs c = false := by
    intro c hc
    exact (charsCI_word hkw hp c (List.mem_of_mem_getLast? (by simp [hc]))).2
  unfold trimList
  rw [dropWhile_ws_append_of_head hw hphead]
  rw [dropTrailWs_append p k]
  by_cases hdk : dropTrailWs k = []
  · rw [if_pos hdk, dropTrailWs_eq_self_of_getLast hplast]
    have := testLeadKw_intro hkw (w := []) (r := []) (by simp) hp rfl
    simpa using this
  · rw [if_neg hdk]
    have hbd : bdryB (dropTrailWs k) = true := by
      apply bdryB_iff_head.mpr
      intro c hc
      rw [head?_of_dropTrailWs_ne hdk] at hc
      exact bdryB_iff_head.mp hk c hc
    have := testLeadKw_intro hkw (w := []) (by simp) hp hbd
    simpa using this

/-- A leading-keyword match survives cutting the text at a position whose
character lowers to `l` and whose preceding character is not a word
character. -/
theorem testLeadKw_cut {kw : String} (hkw : KwLetters kw)
    (hheadne : ∀ k, kw.data.head? = some k → asciiLower k ≠ 'l')
    {pre : List Char} {hd : Char} {tl : List Char}
    (hguard : ∀ c, pre.getLast? = some c → isWordChar c = false)
    (hhd : asciiLower hd = 'l')
    (h : testLeadKw kw (pre ++ hd :: tl) = true) :
    testLeadKw kw (trimList pre) = true := by
  rcases testLeadKw_inv h with ⟨w, p, r, heq, hw, hp, hr⟩
  have hword_hd : isWordChar hd = true :=
    isWordChar_of_asciiLower_letter (congrArg Char.toNat hhd) (by decide)
      (by decide)
  rcases List.append_eq_append_iff.mp heq with ⟨m, hm1, hm2⟩ | ⟨m, hm1, hm2⟩
  · exfalso
    cases m with
    | nil =>
      rcases charsCI_head hkw hp with ⟨k0, c0, cs0, hk0, rfl, hek⟩
      simp only [List.nil_append, List.cons_append, List.cons.injEq] at hm2
      have hc0 : hd = c0 := hm2.1
      exact hheadne k0 hk0
        ((asciiLower_of_eqCI hek).symm.trans (hc0 ▸ hhd))
    | cons x xs =>
      simp only [List.cons_append, List.cons.injEq] at hm2
      have hx : x ∈ w := by
        rw [hm1]
        exact List.mem_append.mpr (Or.inr (List.mem_cons_self _ _))
      have := not_asciiLower_eq_of_ws (hw x hx) 'l' (by decide)
      exact this (hm2.1 ▸ hhd)
  · rcases List.append_eq_append_iff.mp hm2 with ⟨k, hk1, hk2⟩ | ⟨k, hk1, hk2⟩
    · cases k with
      | nil =>
        exfalso
        rw [hk2] at hr
        simp only [List.nil_append, bdryB, hword_hd] at hr
        exact Bool.false_ne_true hr
      | cons y ys =>
        have hy : isWordChar y = false := by
          rw [hk2] at hr
          simpa [bdryB] using hr
        rw [hm1, hk1]
        exact testLeadKw_rebuild hkw hw hp (by simp [bdryB, hy])
    · exfalso
      cases k with
      | nil =>
        rw [List.nil_append] at hk2
        rw [← hk2] at hr
        simp only [bdryB, hword_hd] at hr
        exact Bool.false_ne_true hr
      | cons z zs =>
        cases m with
        | nil =>
          rcases charsCI_head hkw hp with ⟨k0, c0, cs0, hk0, hpc, hek⟩
          rw [List.nil_append] at hk1
          rw [hk1] at hpc
          simp only [List.cons.injEq] at hpc
          simp only [List.cons_append, List.cons.injEq] at hk2
          exact hheadne k0 hk0 ((asciiLower_of_eqCI hek).symm.trans
            (by rw [← hpc.1, ← hk2.1]; exact hhd))
        | cons u us =>
          have hmne : (u :: us : List Char) ≠ [] := by simp
          have hlast : pre.getLast? = (u :: us).getLast? := by
            rw [hm1]
            exact getLast?_append_of_ne_nil hmne
          have hlg := List.getLast?_eq_getLast (u :: us) hmne
          have hmem : (u :: us).getLast hmne ∈ p := by
            rw [hk1]
            exact List.mem_append.mpr
              (Or.inl (List.mem_of_mem_getLast? (by simp [hlg])))
          have hword := (charsCI_word hkw hp _ hmem).1
          have := hguard _ (hlast.trans hlg)
          rw [this] at hword
          exact Bool.false_ne_true hword

/-- A leading-keyword match survives removing a trailing semicolon and
re-trimming. -/
theorem testLeadKw_dropLast {kw : String} (hkw : KwLetters kw)
    {l : List Char} (h : testLeadKw kw l = true)
    (hsemi : l.getLast? = some ';') :
    testLeadKw kw (trimList l.dropLast) = true := by
  rcases testLeadKw_inv h with ⟨w, p, r, rfl, hw, hp, hr⟩
  have hpne : p ≠ [] := charsCI_ne_nil hkw hp
  have hrne : r ≠ [] := by
    intro hcon
    subst hcon
    rw [List.append_nil] at hsemi
    rw [getLast?_append_of_ne_nil hpne] at hsemi
    have hmem : (';' : Char) ∈ p := List.mem_of_mem_getLast? (by simp [hsemi])
    have := (charsCI_word hkw hp _ hmem).1
    simp [isWordChar] at this
  have hd1 : (w ++ (p ++ r)).dropLast = w ++ ((p ++ r).dropLast) :=
    List.dropLast_append_of_ne_nil w (by simp [hrne])
  have hd2 : (p ++ r).dropLast = p ++ r.dropLast :=
    List.dropLast_append_of_ne_nil p hrne
  rw [hd1, hd2]
  apply testLeadKw_rebuild hkw hw hp
  apply bdryB_iff_head.mpr
  intro c hc
  by_cases hdl : r.dropLast = []
  · rw [hdl] at hc
    simp at hc
  · rcases List.dropLast_prefix r with ⟨t, ht⟩
    have hr2 : bdryB (r.dropLast ++ t) = true := by rw [ht]; exact hr
    exact bdryB_iff_head.mp hr2 c
      (by rw [List.head?_append_of_ne_nil _ hdl]; exact hc)

/-- A leading-keyword match survives appending text that opens at a word
boundary. -/
theorem testLeadKw_app {kw : String} (hkw : KwLetters kw) {l rest : List Char}
    (h : testLeadKw kw l = true)
    (hrest : ∀ c, rest.head? = some c → isWordChar c = false) :
    testLeadKw kw (l ++ rest) = true := by
  rcases testLeadKw_inv h with ⟨w, p, r, rfl, hw, hp, hr⟩
  rw [show (w ++ (p ++ r)) ++ rest = w ++ (p ++ (r ++ rest)) from by simp]
  apply testLeadKw_intro hkw hw hp
  apply bdryB_iff_head.mpr
  intro c hc
  cases r with
  | nil =>
    rw [List.nil_append] at hc
    exact hrest c hc
  | cons y ys =>
    simp only [List.cons_append, List.head?_cons, Option.some.injEq] at hc
    subst hc
    simpa [bdryB] using hr

theorem charsCI_select_c {p : List Char} (hp : CharsCI "SELECT".data p) :
    ∃ c ∈ p, asciiLower c = 'c' := by
  unfold CharsCI at hp
  rw [show "SELECT".data = ['S', 'E', 'L', 'E', 'C', 'T'] from rfl] at hp
  cases hp with | cons h0 hp =>
  cases hp with | cons h1 hp =>
  cases hp with | cons h2 hp =>
  cases hp with | cons h3 hp =>
  cases hp with | cons h4 hp =>
  cases hp with | cons h5 hp =>
  cases hp
  refine ⟨_, ?_, (asciiLower_of_eqCI h4).trans (by decide)⟩
  simp

/-- Rebuild a word-bounded occurrence after trimming `a ++ (p ++ k)`. -/
theorem containsWord_rebuild {kw : String} (hkw : KwLetters kw)
    {a p k : List Char} (hp : CharsCI kw.data p)
    (hguard : a = [] ∨ ∃ c, a.getLast? = some c ∧ isWordChar c = false)
    (hk : bdryB k = true) :
    containsWord kw (trimList (a ++ (p ++ k))) = true := by
  have hpne : p ≠ [] := charsCI_ne_nil hkw hp
  have hphead : ∀ c, (p ++ k).head? = some c → isWs c = false := by
    intro c hc
    rw [List.head?_append_of_ne_nil _ hpne] at hc
    exact (charsCI_word hkw hp c (List.mem_of_mem_head? (by simp [hc]))).2
  have hplast : ∀ c, p.getLast? = some c → isWs c = false := by
    intro c hc
    exact (charsCI_word hkw hp c (List.mem_of_mem_getLast? (by simp [hc]))).2
  have hguard' : ∀ a'' : List Char, a'' <:+ a →
      (a'' = [] ∧ (false : Bool) = false) ∨
        ∃ c, a''.getLast? = some c ∧ isWordChar c = false := by
    intro a'' hsuf
    by_cases hae : a'' = []
    · exact Or.inl ⟨hae, rfl⟩
    · rcases hguard with rfl | ⟨c, hc, hcw⟩
      · rcases List.suffix_nil.mp hsuf with rfl
        exact Or.inl ⟨rfl, rfl⟩
      · exact Or.inr ⟨c, (getLast?_of_suffix hsuf hae).trans hc, hcw⟩
  unfold containsWord trimList
  have hdw : (a ++ (p ++ k)).dropWhile isWs =
      a.dropWhile isWs ++ (p ++ k) := by
    rw [List.dropWhile_append]
    by_cases he : (a.dropWhile isWs).isEmpty
    · rw [if_pos he, List.isEmpty_iff.mp he, List.nil_append,
        dropWhile_eq_self_of_head hphead]
    · rw [if_neg he]
  rw [hdw]
  rw [show a.dropWhile isWs ++ (p ++ k) =
    (a.dropWhile isWs ++ p) ++ k from by simp]
  rw [dropTrailWs_append]
  by_cases hdk : dropTrailWs k = []
  · rw [if_pos hdk]
    rw [dropTrailWs_eq_self_of_getLast (by
      intro c hc
      rw [getLast?_append_of_ne_nil hpne] at hc
      exact hplast c hc)]
    apply (containsWordAux_iff hkw.1).mpr
    exact ⟨a.dropWhile isWs, p, [], by simp, hp,
      hguard' _ (dropWhile_suffix_self isWs a), rfl⟩
  · rw [if_neg hdk]
    apply (containsWordAux_iff hkw.1).mpr
    refine ⟨a.dropWhile isWs, p, dropTrailWs k, by simp, hp,
      hguard' _ (dropWhile_suffix_self isWs a), ?_⟩
    apply bdryB_iff_head.mpr
    intro c hc
    rw [head?_of_dropTrailWs_ne hdk] at hc
    exact bdryB_iff_head.mp hk c hc

/-- A word-bounded SELECT occurrence survives cutting the text at a position
whose character lowers to `l`, whose preceding character is not a word
character, and whose removed suffix contains no C. -/
theorem containsWord_select_cut {pre : List Char} {hd : Char} {tl : List Char}
    (hguard : ∀ c, pre.getLast? = some c → isWordChar c = false)
    (hhd : asciiLower hd = 'l')
    (hnoc : ∀ c ∈ hd :: tl, asciiLower c ≠ 'c')
    (h : containsWord "SELECT" (pre ++ hd :: tl) = true) :
    containsWord "SELECT" (trimList pre) = true := by
  have hword_hd : isWordChar hd = true :=
    isWordChar_of_asciiLower_letter (congrArg Char.toNat hhd) (by decide)
      (by decide)
  rcases (containsWordAux_iff (by decide)).mp h with ⟨a, p, b, heq, hp, hg, hb⟩
  have hg' : a = [] ∨ ∃ c, a.getLast? = some c ∧ isWordChar c = false := by
    rcases hg with ⟨rfl, _⟩ | hg2
    · exact Or.inl rfl
    · exact Or.inr hg2
  rcases List.append_eq_append_iff.mp heq with ⟨m, hm1, hm2⟩ | ⟨m, hm1, hm2⟩
  · exfalso
    rcases charsCI_select_c hp with ⟨c, hcp, hcl⟩
    refine hnoc c ?_ hcl
    rw [hm2]
    exact List.mem_append.mpr (Or.inr (List.mem_append.mpr (Or.inl hcp)))
  · rcases List.append_eq_append_iff.mp hm2 with ⟨k, hk1, hk2⟩ | ⟨k, hk1, hk2⟩
    · cases k with
      | nil =>
        exfalso
        rw [hk2] at hb
        simp only [List.nil_append, bdryB, hword_hd] at hb
        exact Bool.false_ne_true hb
      | cons y ys =>
        have hy : isWordChar y = false := by
          rw [hk2] at hb
          simpa [bdryB] using hb
        rw [hm1, hk1]
        exact containsWord_rebuild kwLetters_select hp hg'
          (by simp [bdryB, hy])
    · cases k with
      | nil =>
        rw [List.append_nil] at hk1
        rw [hm1, ← hk1]
        have := containsWord_rebuild kwLetters_select (k := []) hp hg' rfl
        simpa using this
      | cons z zs =>
        exfalso
        cases m with
        | nil =>
          rw [List.nil_append] at hk1
          rcases charsCI_select_c hp with ⟨c, hcp, hcl⟩
          refine hnoc c ?_ hcl
          rw [hk2, ← hk1]
          exact List.mem_append.mpr (Or.inl hcp)
        | cons u us =>
          have hmne : (u :: us : List Char) ≠ [] := by simp
          have hlast : pre.getLast? = (u :: us).getLast? := by
            rw [hm1]
            exact getLast?_append_of_ne_nil hmne
          have hlg := List.getLast?_eq_getLast (u :: us) hmne
          have hmem : (u :: us).getLast hmne ∈ p := by
            rw [hk1]
            exact List.mem_append.mpr
              (Or.inl (List.mem_of_mem_getLast? (by simp [hlg])))
          have hword := (charsCI_word kwLetters_select hp _ hmem).1
          have := hguard _ (hlast.trans hlg)
          rw [this] at hword
          exact Bool.false_ne_true hword

/-- A word-bounded SELECT occurrence survives removing a trailing semicolon
and re-trimming. -/
theorem containsWord_select_dropLast {l : List Char}
    (h : containsWord "SELECT" l = true) (hsemi : l.getLast? = some ';') :
    containsWord "SELECT" (trimList l.dropLast) = true := by
  rcases (containsWordAux_iff (by decide)).mp h with ⟨a, p, b, rfl, hp, hg, hb⟩
  have hg' : a = [] ∨ ∃ c, a.getLast? = some c ∧ isWordChar c = false := by
    rcases hg with ⟨rfl, _⟩ | hg2
    · exact Or.inl rfl
    · exact Or.inr hg2
  have hpne : p ≠ [] := charsCI_ne_nil kwLetters_select hp
  have hbne : b ≠ [] := by
    intro hcon
    subst hcon
    rw [List.append_nil, getLast?_append_of_ne_nil hpne] at hsemi
    have hmem : (';' : Char) ∈ p := List.mem_of_mem_getLast? (by simp [hsemi])
    have := (charsCI_word kwLetters_select hp _ hmem).1
    simp [isWordChar] at this
  have hd1 : (a ++ (p ++ b)).dropLast = a ++ ((p ++ b).dropLast) :=
    List.dropLast_append_of_ne_nil a (by simp [hbne])
  have hd2 : (p ++ b).dropLast = p ++ b.dropLast :=
    List.dropLast_append_of_ne_nil p hbne
  rw [hd1, hd2]
  apply containsWord_rebuild kwLetters_select hp hg'
  apply bdryB_iff_head.mpr
  intro c hc
  by_cases hdl : b.dropLast = []
  · rw [hdl] at hc
    simp at hc
  · rcases List.dropLast_prefix b with ⟨t, ht⟩
    have hb2 : bdryB (b.dropLast ++ t) = true := by rw [ht]; exact hb
    exact bdryB_iff_head.mp hb2 c
      (by rw [List.head?_append_of_ne_nil _ hdl]; exact hc)

/-- A word-bounded occurrence survives appending text that opens at a word
boundary. -/
theorem containsWord_app {kw : String} (hkw : KwLetters kw)
    {l rest : List Char} (h : containsWord kw l = true)
    (hrest : ∀ c, rest.head? = some c → isWordChar c = false) :
    containsWord kw (l ++ rest) = true := by
  rcases (containsWordAux_iff hkw.1).mp h with ⟨a, p, b, rfl, hp, hg, hb⟩
  apply (containsWordAux_iff hkw.1).mpr
  refine ⟨a, p, b ++ rest, by simp, hp, hg, ?_⟩
  apply bdryB_iff_head.mpr
  intro c hc
  cases b with
  | nil =>
    rw [List.nil_append] at hc
    exact hrest c hc
  | cons y ys =>
    simp only [List.cons_append, List.head?_cons, Option.some.injEq] at hc
    subst hc
    simpa [bdryB] using hb

/-! ## SELECT classification through the rewriter's operations -/

/-- The two ways `detectType` classifies text as SELECT: a leading SELECT
keyword, or a leading WITH keyword plus a SELECT keyword somewhere. -/
def Selectish (l : List Char) : Prop :=
  testLeadKw "SELECT" l = true ∨
    (testLeadKw "WITH" l = true ∧ containsWord "SELECT" l = true)

theorem kwLetters_insert : KwLetters "INSERT" := ⟨by decide, by decide⟩
theorem kwLetters_update : KwLetters "UPDATE" := ⟨by decide, by decide⟩
theorem kwLetters_delete : KwLetters "DELETE" := ⟨by decide, by decide⟩
theorem kwLetters_create : KwLetters "CREATE" := ⟨by decide, by decide⟩
theorem kwLetters_alter : KwLetters "ALTER" := ⟨by decide, by decide⟩
theorem kwLetters_drop : KwLetters "DROP" := ⟨by decide, by decide⟩
theorem kwLetters_truncate : KwLetters "TRUNCATE" := ⟨by decide, by decide⟩

/-- Two keywords whose lowered head letters differ cannot both lead. -/
theorem testLeadKw_head_ne {kw1 kw2 : String} (h1 : KwLetters kw1)
    (h2 : KwLetters kw2) {k1 k2 : Char} (hk1 : kw1.data.head? = some k1)
    (hk2 : kw2.data.head? = some k2)
    (hne : asciiLower k1 ≠ asciiLower k2) {l : List Char}
    (h : testLeadKw kw1 l = true) : testLeadKw kw2 l = false := by
  cases hl2 : testLeadKw kw2 l
  · rfl
  · exfalso
    rcases testLeadKw_headCI h1 h with ⟨k1', c1, hkk1, hc1, he1⟩
    rcases testLeadKw_headCI h2 hl2 with ⟨k2', c2, hkk2, hc2, he2⟩
    rw [hk1] at hkk1
    rw [hk2] at hkk2
    rcases Option.some.inj hkk1 with rfl
    rcases Option.some.inj hkk2 with rfl
    rw [hc1] at hc2
    rcases Option.some.inj hc2 with rfl
    exact hne (he1 ▸ he2 ▸ rfl)

theorem selectish_of_detect {l : List Char}
    (h : detectType l = QueryType.SELECT) : Selectish l := by
  unfold detectType at h
  split_ifs at h with h1 h2 h3 h4 h5 h6
  · exact Or.inl h1
  · exact Or.inr (Bool.and_eq_true _ _ |>.mp h6)

theorem detect_of_selectish {l : List Char} (h : Selectish l) :
    detectType l = QueryType.SELECT := by
  rcases h with h1 | ⟨hw, hc⟩
  · unfold detectType
    rw [if_pos h1]
  · have hS := testLeadKw_head_ne kwLetters_with kwLetters_select rfl rfl
      (by decide) hw
    have hI := testLeadKw_head_ne kwLetters_with kwLetters_insert rfl rfl
      (by decide) hw
    have hU := testLeadKw_head_ne kwLetters_with kwLetters_update rfl rfl
      (by decide) hw
    have hD := testLeadKw_head_ne kwLetters_with kwLetters_delete rfl rfl
      (by decide) hw
    have hC := testLeadKw_head_ne kwLetters_with kwLetters_create rfl rfl
      (by decide) hw
    have hA := testLeadKw_head_ne kwLetters_with kwLetters_alter rfl rfl
      (by decide) hw
    have hDr := testLeadKw_head_ne kwLetters_with kwLetters_drop rfl rfl
      (by decide) hw
    have hT := testLeadKw_head_ne kwLetters_with kwLetters_truncate rfl rfl
      (by decide) hw
    unfold detectType
    rw [if_neg (by simp [hS]), if_neg (by simp [hI]), if_neg (by simp [hU]),
      if_neg (by simp [hD]), if_neg (by simp [hC, hA, hDr, hT]),
      if_pos (by simp [hw, hc])]

theorem selectish_ne_nil {l : List Char} (h : Selectish l) : l ≠ [] := by
  intro hcon
  subst hcon
  rcases h with h1 | ⟨h1, _⟩ <;> simp [testLeadKw, dropKw] at h1

/-- The classifier's type field is the leading-keyword classification of the
trimmed text. -/
theorem analyzeQuery_type (sql : List Char) :
    (analyzeQuery sql).type = detectType (trimList sql) := rfl

theorem endsSemi_iff {l : List Char} :
    endsSemi l = true ↔ l.getLast? = some ';' := by
  unfold endsSemi
  exact decide_eq_true_iff

theorem length_dropWhile_le (p : Char → Bool) (l : List Char) :
    (l.dropWhile p).length ≤ l.length := by
  rcases dropWhile_suffix_self p l with ⟨t, ht⟩
  conv_rhs => rw [← ht]
  simp

theorem trimmedL_head {l : List Char} (h : TrimmedL l) :
    ∀ c, l.head? = some c → isWs c = false := by
  intro c hc
  cases hw : isWs c
  · rfl
  · exfalso
    cases l with
    | nil => simp at hc
    | cons x xs =>
      simp only [List.head?_cons, Option.some.injEq] at hc
      subst hc
      have h2 := h.1
      rw [List.dropWhile_cons, hw] at h2
      simp only [if_true] at h2
      have hlen := congrArg List.length h2
      have hle := length_dropWhile_le isWs xs
      simp at hlen
      omega

theorem trimmedL_of_head_last {l : List Char}
    (hh : ∀ c, l.head? = some c → isWs c = false)
    (hl : ∀ c, l.getLast? = some c → isWs c = false) : TrimmedL l := by
  constructor
  · exact dropWhile_eq_self_of_head hh
  · apply dropWhile_eq_self_of_head
    intro c hc
    apply hl
    rw [List.getLast?_eq_head?_reverse]
    exact hc

theorem trimList_length_le (l : List Char) :
    (trimList l).length ≤ l.length := by
  unfold trimList
  rcases dropTrailWs_prefix_self (l.dropWhile isWs) with ⟨t, ht⟩
  have h1 : (dropTrailWs (l.dropWhile isWs)).length ≤
      (l.dropWhile isWs).length := by
    conv_rhs => rw [← ht]
    simp
  exact h1.trans (length_dropWhile_le isWs l)

/-- SELECT classification survives trimming. -/
theorem selectish_trim {l : List Char} (h : Selectish l) :
    Selectish (trimList l) := by
  rcases h with h1 | ⟨hw, hc⟩
  · rcases testLeadKw_inv h1 with ⟨w, p, r, rfl, hww, hp, hr⟩
    exact Or.inl (testLeadKw_rebuild kwLetters_select hww hp hr)
  · refine Or.inr ⟨?_, ?_⟩
    · rcases testLeadKw_inv hw with ⟨w, p, r, rfl, hww, hp, hr⟩
      exact testLeadKw_rebuild kwLetters_with hww hp hr
    · rcases (containsWordAux_iff (by decide)).mp hc
        with ⟨a, p, b, rfl, hp, hg, hb⟩
      apply containsWord_rebuild kwLetters_select hp ?_ hb
      rcases hg with ⟨rfl, _⟩ | hg2
      · exact Or.inl rfl
      · exact Or.inr hg2

/-- SELECT classification survives a strip of any LIMIT-shaped end-anchored
match followed by trimming, and the strip never lengthens the text. -/
theorem selectish_strip {f : List Char → Bool}
    (hf : ∀ s, f s = true → LimitShaped s) {l : List Char}
    (hsel : Selectish l) :
    Selectish (trimList (replaceEnd f l)) ∧
      (replaceEnd f l).length ≤ l.length := by
  unfold replaceEnd
  rcases hsc : reScan (bmatch f) false l with _ | ⟨pre, u⟩
  · exact ⟨selectish_trim hsel, le_refl _⟩
  · rcases reScan_some_inv hsc with ⟨suf, rfl, hfs, _, hguard⟩
    have hft : f suf = true := by
      unfold bmatch at hfs
      split at hfs
      · assumption
      · simp at hfs
    rcases hf suf hft with ⟨hd, tl, rfl, hhd, _, hnoc⟩
    constructor
    · rcases hsel with h1 | ⟨hw, hc⟩
      · exact Or.inl (testLeadKw_cut kwLetters_select
          (by intro k hk; rcases Option.some.inj hk.symm ▸ hk with _;
              simp only [show ("SELECT".data).head? = some 'S' from rfl,
                Option.some.injEq] at hk
              subst hk
              decide) hguard hhd h1)
      · refine Or.inr ⟨testLeadKw_cut kwLetters_with ?_ hguard hhd hw,
          containsWord_select_cut hguard hhd hnoc hc⟩
        intro k hk
        simp only [show ("WITH".data).head? = some 'W' from rfl,
          Option.some.injEq] at hk
        subst hk
        decide
    · simp

theorem limitClause_getLast_digit (L O : Nat) :
    ∃ d, (limitClause L O).getLast? = some d ∧ isDigitCh d = true := by
  unfold limitClause
  by_cases hO : O > 0
  · rw [if_pos hO]
    rcases natChars_getLast?_digit O with ⟨d, hd, hdig⟩
    refine ⟨d, ?_, hdig⟩
    rw [getLast?_append_of_ne_nil (natChars_ne_nil O)]
    exact hd
  · rw [if_neg hO]
    rcases natChars_getLast?_digit L with ⟨d, hd, hdig⟩
    refine ⟨d, ?_, hdig⟩
    rw [getLast?_append_of_ne_nil (natChars_ne_nil L)]
    exact hd

theorem limitClause_ne_nil (L O : Nat) : limitClause L O ≠ [] := by
  unfold limitClause
  by_cases hO : O > 0
  · rw [if_pos hO]
    simp
  · rw [if_neg hO]
    simp

/-! ## Evaluating the classifier on a rewritten text -/

theorem analyzeQuery_hasLimit_eq (sql : List Char) :
    (analyzeQuery sql).hasLimit = (findLimitMatch (trimList sql)).isSome := rfl

theorem analyzeQuery_existingLimit_eq (sql : List Char) :
    (analyzeQuery sql).existingLimit =
      (match findLimitMatch (trimList sql) with
       | some (_, some n2, _) => some n2
       | some (n1, none, _) => some n1
       | none => none) := rfl

theorem analyzeQuery_existingOffset_eq (sql : List Char) :
    (analyzeQuery sql).existingOffset =
      (match
        (if (findLimitMatch (trimList sql)).isSome then none
         else findOffsetMatch (trimList sql)) with
       | some n =>
         if (findLimitMatch (trimList sql)).isSome then
           (match findLimitMatch (trimList sql) with
            | some (n1, some _, _) => some n1
            | some (_, none, n3) => n3
            | none => none)
         else some n
       | none =>
         (match findLimitMatch (trimList sql) with
          | some (n1, some _, _) => some n1
          | some (_, none, n3) => n3
          | none => none)) := rfl

/-- A trimmed, SELECT-classified text with a freshly appended clause is still
trimmed, is classified SELECT, and the classifier reads exactly the appended
clause as the trailing LIMIT. -/
theorem analyzeQuery_appended {m2 : List Char} (L O : Nat) {semi : List Char}
    (hs : semi = [] ∨ semi = [';']) (htr : TrimmedL m2) (hsel : Selectish m2) :
    trimList (m2 ++ ' ' :: (limitClause L O ++ semi)) =
        m2 ++ ' ' :: (limitClause L O ++ semi) ∧
      (analyzeQuery (m2 ++ ' ' :: (limitClause L O ++ semi))).type =
        QueryType.SELECT ∧
      (analyzeQuery (m2 ++ ' ' :: (limitClause L O ++ semi))).hasLimit =
        true ∧
      (analyzeQuery (m2 ++ ' ' :: (limitClause L O ++ semi))).existingLimit =
        some L ∧
      (analyzeQuery (m2 ++ ' ' :: (limitClause L O ++ semi))).existingOffset =
        (if 0 < O then some O else none) := by
  have hm2ne : m2 ≠ [] := selectish_ne_nil hsel
  have htrW : trimList (m2 ++ ' ' :: (limitClause L O ++ semi)) =
      m2 ++ ' ' :: (limitClause L O ++ semi) := by
    apply trimList_eq_of_trimmed
    apply trimmedL_of_head_last
    · intro c hc
      rw [List.head?_append_of_ne_nil _ hm2ne] at hc
      exact trimmedL_head htr c hc
    · intro c hc
      rw [getLast?_append_of_ne_nil (by simp)] at hc
      rcases hs with rfl | rfl
      · rw [show (' ' :: (limitClause L O ++ ([] : List Char))) =
          [' '] ++ limitClause L O from by simp] at hc
        rw [getLast?_append_of_ne_nil (limitClause_ne_nil L O)] at hc
        rcases limitClause_getLast_digit L O with ⟨d, hd, hdig⟩
        rw [hd] at hc
        rcases Option.some.inj hc with rfl
        exact ws_of_digit_false hdig
      · rw [show (' ' :: (limitClause L O ++ [';'])) =
          (' ' :: limitClause L O) ++ [';'] from by simp] at hc
        rw [List.getLast?_concat] at hc
        rcases Option.some.inj hc with rfl
        decide
  have hrest : ∀ c, (' ' :: (limitClause L O ++ semi)).head? = some c →
      isWordChar c = false := by
    intro c hc
    rcases Option.some.inj hc with rfl
    decide
  have hselW : Selectish (m2 ++ ' ' :: (limitClause L O ++ semi)) := by
    rcases hsel with h1 | ⟨hw, hc⟩
    · exact Or.inl (testLeadKw_app kwLetters_select h1 hrest)
    · exact Or.inr ⟨testLeadKw_app kwLetters_with hw hrest,
        containsWord_app kwLetters_select hc hrest⟩
  have hfm := findLimitMatch_append m2 L O hs
  refine ⟨htrW, ?_, ?_, ?_, ?_⟩
  · rw [analyzeQuery_type, htrW]
    exact detect_of_selectish hselW
  · rw [analyzeQuery_hasLimit_eq, htrW, hfm]
    rfl
  · rw [analyzeQuery_existingLimit_eq, htrW, hfm]
  · rw [analyzeQuery_existingOffset_eq, htrW, hfm]
    rfl

/-- Full characterization of a forced rewrite on a SELECT statement: the
result is a trimmed base followed by a single fresh clause, where the base is
the (possibly limit-stripped, semicolon-stripped) trimmed input. -/
theorem applyQueryLimit_force_shape {sql : List Char} (L O : Nat)
    (h : (analyzeQuery sql).type = QueryType.SELECT) :
    ∃ m2 semi,
      (semi = [] ∨ semi = [';']) ∧
      (applyQueryLimit sql L O true).sql =
        m2 ++ ' ' :: (limitClause L O ++ semi) ∧
      TrimmedL m2 ∧ Selectish m2 ∧
      (applyQueryLimit sql L O true).wasLimited = true ∧
      (∀ m1, m1 = (if (analyzeQuery sql).hasLimit then
            trimList (replaceEnd stdMatchAt
              (trimList (replaceEnd mysqlMatchAt (trimList sql))))
          else trimList sql) →
        m2 = (if endsSemi m1 then trimList m1.dropLast else m1) ∧
        semi = (if endsSemi m1 then [';'] else ([] : List Char)) ∧
        m2.length ≤ m1.length ∧ m1.length ≤ (trimList sql).length) := by
  have hsel0 : Selectish (trimList sql) :=
    selectish_of_detect ((analyzeQuery_type sql) ▸ h)
  have happ : applyQueryLimit sql L O true =
      (let m1 := if (analyzeQuery sql).hasLimit then
          trimList (replaceEnd stdMatchAt
            (trimList (replaceEnd mysqlMatchAt (trimList sql))))
        else trimList sql
      let hsm := endsSemi m1
      let m2 := if hsm then trimList m1.dropLast else m1
      { sql := if hsm then (m2 ++ ' ' :: limitClause L O) ++ [';']
          else m2 ++ ' ' :: limitClause L O
        wasLimited := true
        originalLimit := (analyzeQuery sql).existingLimit
        appliedLimit := L
        appliedOffset := O }) := by
    unfold applyQueryLimit
    rw [if_neg (by simp [h])]
    rw [if_neg (by simp)]
    by_cases hL : (analyzeQuery sql).hasLimit
    · simp only [hL, Bool.true_and, if_true, Bool.and_true]
    · simp only [hL, Bool.false_and, if_false, Bool.and_false,
        Bool.false_eq_true]
  set m1 := (if (analyzeQuery sql).hasLimit then
      trimList (replaceEnd stdMatchAt
        (trimList (replaceEnd mysqlMatchAt (trimList sql))))
    else trimList sql) with hm1def
  have hm1a : Selectish m1 ∧ TrimmedL m1 ∧
      m1.length ≤ (trimList sql).length := by
    rw [hm1def]
    by_cases hL : (analyzeQuery sql).hasLimit
    · rw [if_pos hL]
      have s1 := selectish_strip
        (fun s hs => (mysqlMatchAt_shaped hs).1) hsel0
      have s2 := selectish_strip (fun s hs => stdMatchAt_shaped hs) s1.1
      refine ⟨s2.1, trimmed_trimList _, ?_⟩
      calc (trimList (replaceEnd stdMatchAt
              (trimList (replaceEnd mysqlMatchAt (trimList sql))))).length
          ≤ (replaceEnd stdMatchAt
              (trimList (replaceEnd mysqlMatchAt (trimList sql)))).length :=
            trimList_length_le _
        _ ≤ (trimList (replaceEnd mysqlMatchAt (trimList sql))).length := s2.2
        _ ≤ (replaceEnd mysqlMatchAt (trimList sql)).length :=
            trimList_length_le _
        _ ≤ (trimList sql).length := s1.2
    · rw [if_neg hL]
      exact ⟨hsel0, trimmed_trimList _, le_refl _⟩
  by_cases hsemi : endsSemi m1 = true
  · refine ⟨trimList m1.dropLast, [';'], Or.inr rfl, ?_,
      trimmed_trimList _, ?_, by rw [happ], ?_⟩
    · rw [happ]
      simp only [hsemi, if_true]
      simp
    · have hgl : m1.getLast? = some ';' := endsSemi_iff.mp hsemi
      rcases hm1a.1 with h1 | ⟨hw, hc⟩
      · exact Or.inl (testLeadKw_dropLast kwLetters_select h1 hgl)
      · exact Or.inr ⟨testLeadKw_dropLast kwLetters_with hw hgl,
          containsWord_select_dropLast hc hgl⟩
    · intro m1' hm1'
      subst hm1'
      rw [if_pos hsemi, if_pos hsemi]
      refine ⟨rfl, rfl, ?_, hm1a.2.2⟩
      calc (trimList m1.dropLast).length ≤ m1.dropLast.length :=
            trimList_length_le _
        _ ≤ m1.length := by
            rw [List.length_dropLast]
            omega
  · refine ⟨m1, [], Or.inl rfl, ?_, hm1a.2.1, hm1a.1, by rw [happ], ?_⟩
    · rw [happ]
      simp only [hsemi]
      simp
    · intro m1' hm1'
      subst hm1'
      rw [if_neg (by simp [hsemi]), if_neg (by simp [hsemi])]
      exact ⟨rfl, rfl, le_refl _, hm1a.2.2⟩

/-- C3: forced override is idempotent. Applying the rewriter twice with
forceLimit on a SELECT text yields a base followed by exactly one trailing
LIMIT clause reflecting the second call (LIMIT L2, plus OFFSET O2 only when
O2 is positive); the base is no longer than the trimmed input, so no
duplicate clauses accumulate, and the classifier reads back L2 and O2 from
the result. -/
theorem c3_forced_override_idempotent (s : List Char) (L1 O1 L2 O2 : Nat)
    (h : (analyzeQuery s).type = QueryType.SELECT) :
    ∃ base semi,
      (semi = [] ∨ semi = [';']) ∧
      (applyQueryLimit (applyQueryLimit s L1 O1 true).sql L2 O2 true).sql =
        base ++ ' ' :: (limitClause L2 O2 ++ semi) ∧
      base.length ≤ (trimList s).length ∧
      limitClause L2 O2 =
        (if 0 < O2 then
          "LIMIT ".data ++ natChars L2 ++ " OFFSET ".data ++ natChars O2
        else "LIMIT ".data ++ natChars L2) ∧
      (analyzeQuery
        (applyQueryLimit (applyQueryLimit s L1 O1 true).sql L2 O2
          true).sql).hasLimit = true ∧
      (analyzeQuery
        (applyQueryLimit (applyQueryLimit s L1 O1 true).sql L2 O2
          true).sql).existingLimit = some L2 ∧
      (analyzeQuery
        (applyQueryLimit (applyQueryLimit s L1 O1 true).sql L2 O2
          true).sql).existingOffset =
        (if 0 < O2 then some O2 else none) := by
  rcases applyQueryLimit_force_shape L1 O1 h with
    ⟨m2, semi1, hs1, hsql1, htr1, hsel1, hwl1, hchar1⟩
  obtain ⟨hm2eq, hsemi1eq, hm2len, hm1len⟩ := hchar1 _ rfl
  have hm2s : m2.length ≤ (trimList s).length := le_trans hm2len hm1len
  obtain ⟨htrW, htyW, hhlW, helW, heoW⟩ :=
    analyzeQuery_appended L1 O1 hs1 htr1 hsel1
  have htyW2 : (analyzeQuery (applyQueryLimit s L1 O1 true).sql).type =
      QueryType.SELECT := by
    rw [hsql1]
    exact htyW
  have hhlW2 : (analyzeQuery (applyQueryLimit s L1 O1 true).sql).hasLimit =
      true := by
    rw [hsql1]
    exact hhlW
  obtain ⟨base, semi2, hs2, hsql2, htr2, hsel2, hwl2, hchar2⟩ :=
    applyQueryLimit_force_shape L2 O2 htyW2
  obtain ⟨hbase, hsemi2, hblen, hother⟩ := hchar2 _ rfl
  rw [if_pos hhlW2, hsql1, htrW, replaceEnd_mysql_appended m2 L1 O1 hs1,
    htrW, replaceEnd_std_append m2 L1 O1 hs1, trimList_append_space htr1]
    at hblen
  have hbs : base.length ≤ (trimList s).length := le_trans hblen hm2s
  obtain ⟨htrT, htyT, hhlT, helT, heoT⟩ :=
    analyzeQuery_appended L2 O2 hs2 htr2 hsel2
  refine ⟨base, semi2, hs2, hsql2, hbs, rfl, ?_, ?_, ?_⟩
  · rw [hsql2]
    exact hhlT
  · rw [hsql2]
    exact helT
  · rw [hsql2]
    exact heoT

/-- Witness for C3 at a concrete SELECT and concrete limits. -/
theorem c3_forced_override_idempotent_witness :
    (analyzeQuery ("SELECT * FROM t".data)).type = QueryType.SELECT ∧
    (∃ base semi,
      (semi = [] ∨ semi = [';']) ∧
      (applyQueryLimit
        (applyQueryLimit ("SELECT * FROM t".data) 10 0 true).sql 20 5
          true).sql =
        base ++ ' ' :: (limitClause 20 5 ++ semi) ∧
      base.length ≤ (trimList ("SELECT * FROM t".data)).length ∧
      limitClause 20 5 =
        (if 0 < 5 then
          "LIMIT ".data ++ natChars 20 ++ " OFFSET ".data ++ natChars 5
        else "LIMIT ".data ++ natChars 20) ∧
      (analyzeQuery
        (applyQueryLimit
          (applyQueryLimit ("SELECT * FROM t".data) 10 0 true).sql 20 5
            true).sql).hasLimit = true ∧
      (analyzeQuery
        (applyQueryLimit
          (applyQueryLimit ("SELECT * FROM t".data) 10 0 true).sql 20 5
            true).sql).existingLimit = some 20 ∧
      (analyzeQuery
        (applyQueryLimit
          (applyQueryLimit ("SELECT * FROM t".data) 10 0 true).sql 20 5
            true).sql).existingOffset = (if 0 < 5 then some 5 else none)) :=
  ⟨by decide, c3_forced_override_idempotent ("SELECT * FROM t".data)
    10 0 20 5 (by decide)⟩

/-- C1 counterexample: on the spec\x27s own example input the classifier
reports hasLimit = true, not false: the trailing `-- LIMIT 999` comment is
matched because no comment or string neutralization happens before the
regex runs. -/
theorem c1_comment_immunity_counterexample :
    (analyzeQuery
      ("SELECT * FROM t WHERE note = \x27LIMIT 10 trick\x27 -- LIMIT 999"
        ).data).hasLimit = true := by
  decide

/-- C1 amended: the classifier works on the raw text, so the LIMIT inside
the trailing comment is read as the statement\x27s LIMIT clause, limit 999. -/
theorem c1_comment_immunity_amended :
    (analyzeQuery
      ("SELECT * FROM t WHERE note = \x27LIMIT 10 trick\x27 -- LIMIT 999"
        ).data).hasLimit = true ∧
    (analyzeQuery
      ("SELECT * FROM t WHERE note = \x27LIMIT 10 trick\x27 -- LIMIT 999"
        ).data).existingLimit = some 999 := by
  constructor
  · decide
  · decide

/-- C2: a text not classified SELECT is returned unchanged with
wasLimited = false, for every limit, offset and force flag. -/
theorem c2_non_select_frame (sql : List Char) (L O : Nat) (f : Bool)
    (h : (analyzeQuery sql).type ≠ QueryType.SELECT) :
    (applyQueryLimit sql L O f).sql = sql ∧
    (applyQueryLimit sql L O f).wasLimited = false := by
  unfold applyQueryLimit
  rw [if_pos h]
  exact ⟨rfl, rfl⟩

/-- Witness for C2 at an UPDATE statement. -/
theorem c2_non_select_frame_witness :
    (analyzeQuery ("UPDATE t SET x = 1".data)).type ≠ QueryType.SELECT ∧
    ((applyQueryLimit ("UPDATE t SET x = 1".data) 100 7 true).sql =
        "UPDATE t SET x = 1".data ∧
      (applyQueryLimit ("UPDATE t SET x = 1".data) 100 7 true).wasLimited =
        false) :=
  ⟨by decide, c2_non_select_frame ("UPDATE t SET x = 1".data) 100 7 true
    (by decide)⟩

/-- C4 counterexample: a SELECT ending in `LIMIT 10;` loses its trailing
semicolon under a forced rewrite, because the strip regex consumes the
semicolon together with the clause before the semicolon check runs. -/
theorem c4_semicolon_counterexample :
    endsSemi (trimList ("SELECT * FROM t LIMIT 10;".data)) = true ∧
    (applyQueryLimit ("SELECT * FROM t LIMIT 10;".data) 500 0
      true).wasLimited = true ∧
    endsSemi (applyQueryLimit ("SELECT * FROM t LIMIT 10;".data) 500 0
      true).sql = false := by
  refine ⟨by decide, by decide, by decide⟩

/-- C4 amended: the semicolon check runs after the strip, so the restored
semicolon matches the post-strip text; when no existing LIMIT was present
(nothing is stripped) a forced rewrite does preserve the trailing
semicolon of the trimmed input. -/
theorem c4_semicolon_amended (sql : List Char) (L O : Nat)
    (hty : (analyzeQuery sql).type = QueryType.SELECT)
    (hnl : (analyzeQuery sql).hasLimit = false) :
    (applyQueryLimit sql L O true).wasLimited = true ∧
    endsSemi (applyQueryLimit sql L O true).sql =
      endsSemi (trimList sql) := by
  rcases applyQueryLimit_force_shape L O hty with
    ⟨m2, semi, hs, hsql, htr, hsel, hwl, hchar⟩
  obtain ⟨hm2, hsemi, hlen1, hlen2⟩ := hchar _ rfl
  simp only [hnl, Bool.false_eq_true, if_false] at hm2 hsemi
  refine ⟨hwl, ?_⟩
  rw [hsql]
  by_cases hE : endsSemi (trimList sql) = true
  · rw [hE]
    rw [if_pos hE] at hsemi
    subst hsemi
    apply endsSemi_iff.mpr
    rw [getLast?_append_of_ne_nil (by simp)]
    rw [show (' ' :: (limitClause L O ++ [';'])) =
      (' ' :: limitClause L O) ++ [';'] from by simp]
    rw [List.getLast?_concat]
  · rw [Bool.not_eq_true] at hE
    rw [hE]
    rw [if_neg (by simp [hE])] at hsemi
    subst hsemi
    rcases limitClause_getLast_digit L O with ⟨d, hd, hdig⟩
    have hgl : (m2 ++ ' ' :: (limitClause L O ++ ([] : List Char))).getLast?
        = some d := by
      rw [getLast?_append_of_ne_nil (by simp)]
      rw [show (' ' :: (limitClause L O ++ ([] : List Char))) =
        [' '] ++ limitClause L O from by simp]
      rw [getLast?_append_of_ne_nil (limitClause_ne_nil L O)]
      exact hd
    apply decide_eq_false
    rw [hgl]
    intro hcon
    rcases Option.some.inj hcon with rfl
    rw [show isDigitCh ';' = false from rfl] at hdig
    exact Bool.false_ne_true hdig

/-- Witness for C4 amended at a semicolon-terminated SELECT without an
existing LIMIT. -/
theorem c4_semicolon_amended_witness :
    (analyzeQuery ("SELECT * FROM t;".data)).type = QueryType.SELECT ∧
    (analyzeQuery ("SELECT * FROM t;".data)).hasLimit = false ∧
    ((applyQueryLimit ("SELECT * FROM t;".data) 10 0 true).wasLimited =
        true ∧
      endsSemi (applyQueryLimit ("SELECT * FROM t;".data) 10 0 true).sql =
        endsSemi (trimList ("SELECT * FROM t;".data))) :=
  ⟨by decide, by decide,
    c4_semicolon_amended ("SELECT * FROM t;".data) 10 0 (by decide)
      (by decide)⟩

/-- C5 counterexample: at bufferHits = 95, bufferReads = 5 the cache-hit
ratio is exactly 95 percent, the insight value is the claimed string, yet
the status is Warning, not Good: the code compares with a strict `>`. -/
theorem c5_cache_hit_counterexample :
    (cacheHitInsight 95 5).value = "95.0%" ∧
    (cacheHitInsight 95 5).status = InsightStatus.warning := by
  unfold cacheHitInsight
  constructor
  · show (if (95 : ℚ) + 5 > 0 then
        ratToFixed 1 ((95 : ℚ) / ((95 : ℚ) + 5) * 100) ++ "%"
      else "N/A") = "95.0%"
    rw [if_pos (by norm_num),
      show (95 : ℚ) / ((95 : ℚ) + 5) * 100 = 95 by norm_num]
    decide
  · show (if (95 : ℚ) / (if (95 : ℚ) + 5 = 0 then 1 else (95 : ℚ) + 5) >
        0.95 then InsightStatus.good else InsightStatus.warning) =
      InsightStatus.warning
    rw [if_neg (by norm_num : ¬((95 : ℚ) + 5 = 0))]
    rw [if_neg (by norm_num : ¬((95 : ℚ) / ((95 : ℚ) + 5) > 0.95))]

/-- C5 amended: for whole-number buffer counts the status is Good exactly
when the guarded ratio strictly exceeds 95 percent, that is when
19 * (hits + reads) < 20 * hits; a ratio of exactly 95 percent is Warning. -/
theorem c5_cache_hit_amended (h r : Nat) :
    (cacheHitInsight (h : ℚ) (r : ℚ)).status = InsightStatus.good ↔
      19 * (h + r) < 20 * h := by
  unfold cacheHitInsight
  show (if (h : ℚ) / (if (h : ℚ) + r = 0 then 1 else (h : ℚ) + r) >
      0.95 then InsightStatus.good else InsightStatus.warning) =
    InsightStatus.good ↔ 19 * (h + r) < 20 * h
  by_cases h0 : (h : ℚ) + r = 0
  · have hh : (h : Nat) = 0 := by
      have := le_antisymm
        (by nlinarith [Nat.cast_nonneg (α := ℚ) h, Nat.cast_nonneg (α := ℚ) r])
        (Nat.cast_nonneg (α := ℚ) h)
      exact_mod_cast this
    have hr : (r : Nat) = 0 := by
      have := le_antisymm
        (by nlinarith [Nat.cast_nonneg (α := ℚ) h, Nat.cast_nonneg (α := ℚ) r])
        (Nat.cast_nonneg (α := ℚ) r)
      exact_mod_cast this
    subst hh
    subst hr
    rw [if_pos h0]
    norm_num
    exact fun hcon => InsightStatus.noConfusion hcon
  · rw [if_neg h0]
    have hpos : 0 < (h : ℚ) + r := by
      rcases lt_or_eq_of_le (by positivity : (0 : ℚ) ≤ (h : ℚ) + r) with
        hlt | heq
      · exact hlt
      · exact absurd heq.symm h0
    by_cases hc : (h : ℚ) / ((h : ℚ) + r) > 0.95
    · rw [if_pos hc]
      refine ⟨fun _ => ?_, fun _ => rfl⟩
      rw [gt_iff_lt, lt_div_iff₀ hpos] at hc
      have hq : (19 : ℚ) * (h + r) < 20 * h := by nlinarith
      exact_mod_cast hq
    · rw [if_neg hc]
      constructor
      · intro hcon
        exact InsightStatus.noConfusion hcon
      · intro hcon
        exfalso
        apply hc
        have hq : (19 : ℚ) * ((h : ℚ) + r) < 20 * h := by exact_mod_cast hcon
        rw [gt_iff_lt, lt_div_iff₀ hpos]
        nlinarith

/-- C6 counterexample: on an empty plan array the analysis has zero
warnings but still three insights, not an empty analysis. -/
theorem c6_empty_plan_counterexample :
    (analyzePlan []).warnings = [] ∧
    (analyzePlan []).insights.length = 3 := by
  exact ⟨rfl, rfl⟩

/-- C6 amended: whenever the root node is structurally absent the analyzer
returns zero warnings, zero counted nodes and zero row totals, but always
the three fixed insights. -/
theorem c6_empty_plan_amended (plan : List ExplainPlanResult)
    (h : ((plan.head?).bind (·.plan)) = none) :
    (analyzePlan plan).warnings = [] ∧
    (analyzePlan plan).nodeCount = 0 ∧
    (analyzePlan plan).totalRows = 0 ∧
    (analyzePlan plan).insights.length = 3 := by
  unfold analyzePlan
  rw [h]
  exact ⟨rfl, rfl, rfl, rfl⟩

/-- Witness for C6 amended at the empty plan array. -/
theorem c6_empty_plan_amended_witness :
    ((([] : List ExplainPlanResult).head?).bind (·.plan)) = none ∧
    ((analyzePlan ([] : List ExplainPlanResult)).warnings = [] ∧
      (analyzePlan ([] : List ExplainPlanResult)).nodeCount = 0 ∧
      (analyzePlan ([] : List ExplainPlanResult)).totalRows = 0 ∧
      (analyzePlan ([] : List ExplainPlanResult)).insights.length = 3) :=
  ⟨rfl, c6_empty_plan_amended [] rfl⟩

/-- C7: every provider failure inside the estimator is caught and mapped to
a zero estimate that is not flagged large; no error propagates, for every
input text, engine and error class. -/
theorem c7_estimator_swallows_errors (sql : List Char) (db : DbKind)
    (e : EstimateErr) :
    (estimatePost sql db (Except.error e)).estimatedRows = 0 ∧
    (estimatePost sql db (Except.error e)).isLargeResult = false := by
  unfold estimatePost
  by_cases hg : isSelectQuery sql
  · rw [if_neg (by simp [hg])]
    cases db <;> cases e <;> exact ⟨rfl, rfl⟩
  · rw [if_pos (by simp [hg])]
    exact ⟨rfl, rfl⟩

/-- C8: the success-path response flags a large result and carries the
magnitude-bearing warning exactly when the estimate strictly exceeds the
10,000 threshold; at or below it there is no flag and no warning. -/
theorem c8_large_result_threshold (n : Nat) :
    LARGE_RESULT_THRESHOLD = 10000 ∧
    (mkEstimateResponse n).estimatedRows = n ∧
    ((mkEstimateResponse n).isLargeResult = true ↔
      LARGE_RESULT_THRESHOLD < n) ∧
    (mkEstimateResponse n).warning =
      (if LARGE_RESULT_THRESHOLD < n then
        some ("This query may return ~" ++ estFormatNumber n ++
          " rows. Consider adding filters or using LIMIT.")
      else none) := by
  refine ⟨rfl, rfl, ?_, ?_⟩
  · show (decide (n > LARGE_RESULT_THRESHOLD) = true ↔
      LARGE_RESULT_THRESHOLD < n)
    exact decide_eq_true_iff
  · show (if decide (n > LARGE_RESULT_THRESHOLD) = true then
        some (largeWarning n) else none) =
      (if LARGE_RESULT_THRESHOLD < n then
        some ("This query may return ~" ++ estFormatNumber n ++
          " rows. Consider adding filters or using LIMIT.")
      else none)
    by_cases hn : LARGE_RESULT_THRESHOLD < n
    · rw [if_pos (by simp [hn]), if_pos hn]
      rfl
    · rw [if_neg (by simp [hn]), if_neg hn]

/-- C10: on every input not classified SELECT the rewriter reports applied
limit and offset 0 and leaves originalLimit unset, whatever limit and
offset the caller requested. -/
theorem c10_non_select_zero_applied (sql : List Char) (L O : Nat)
    (f : Bool) (h : (analyzeQuery sql).type ≠ QueryType.SELECT) :
    (applyQueryLimit sql L O f).appliedLimit = 0 ∧
    (applyQueryLimit sql L O f).appliedOffset = 0 ∧
    (applyQueryLimit sql L O f).originalLimit = none := by
  unfold applyQueryLimit
  rw [if_pos h]
  exact ⟨rfl, rfl, rfl⟩

/-- Witness for C10 at an INSERT statement. -/
theorem c10_non_select_zero_applied_witness :
    (analyzeQuery ("INSERT INTO t VALUES (1)".data)).type ≠
      QueryType.SELECT ∧
    ((applyQueryLimit ("INSERT INTO t VALUES (1)".data) 250 9
        false).appliedLimit = 0 ∧
      (applyQueryLimit ("INSERT INTO t VALUES (1)".data) 250 9
        false).appliedOffset = 0 ∧
      (applyQueryLimit ("INSERT INTO t VALUES (1)".data) 250 9
        false).originalLimit = none) :=
  ⟨by decide, c10_non_select_zero_applied ("INSERT INTO t VALUES (1)".data)
    250 9 false (by decide)⟩

theorem fmtNumberDivs_ne {q d : ℚ} (h : d ∈ fmtNumberDivs q) : d ≠ 0 := by
  unfold fmtNumberDivs at h
  split at h
  · simp at h
    subst h
    norm_num
  · split at h
    · simp at h
      subst h
      norm_num
    · simp at h

theorem fmtTimeDivs_ne {ms d : ℚ} (h : d ∈ fmtTimeDivs ms) : d ≠ 0 := by
  unfold fmtTimeDivs at h
  split at h
  · simp at h
    subst h
    norm_num
  · simp at h

theorem mem_ite_nil_elim {c : Prop} [Decidable c] {A : List ℚ} {d : ℚ}
    (h : d ∈ if c then A else []) : c ∧ d ∈ A := by
  split at h
  · rename_i hc
    exact ⟨hc, h⟩
  · simp at h

theorem nodeDivs_ne (node : ExplainPlanNode) {d : ℚ}
    (h : d ∈ nodeDivs node) : d ≠ 0 := by
  simp only [nodeDivs] at h
  rcases List.mem_append.mp h with h | h4
  · rcases List.mem_append.mp h with h | h3
    · rcases List.mem_append.mp h with h1 | h2
      · exact fmtNumberDivs_ne (mem_ite_nil_elim h1).2
      · obtain ⟨hg, h2⟩ := mem_ite_nil_elim h2
        simp only [Bool.and_eq_true, decide_eq_true_eq] at hg
        rw [List.singleton_append] at h2
        rcases List.mem_cons.mp h2 with rfl | h2
        · exact ne_of_gt hg.1
        · obtain ⟨-, h2⟩ := mem_ite_nil_elim h2
          rcases List.mem_append.mp h2 with h2 | h2
          · exact fmtNumberDivs_ne h2
          · exact fmtNumberDivs_ne h2
    · exact fmtTimeDivs_ne (mem_ite_nil_elim h3).2
  · exact fmtNumberDivs_ne (mem_ite_nil_elim h4).2

theorem ExplainPlanNode.one_le_sizeOf (node : ExplainPlanNode) :
    1 ≤ sizeOf node := by
  cases node with
  | mk a b c d e f g h i j k plans =>
    simp only [ExplainPlanNode.mk.sizeOf_spec]
    omega

theorem divs_ne_aux (k : Nat) :
    (∀ node : ExplainPlanNode, sizeOf node ≤ k →
      ∀ d ∈ treeDivs node, d ≠ 0) ∧
    (∀ l : List ExplainPlanNode, sizeOf l ≤ k →
      ∀ d ∈ forestDivs l, d ≠ 0) := by
  induction k with
  | zero =>
    constructor
    · intro node hsz
      exfalso
      have := node.one_le_sizeOf
      omega
    · intro l hsz
      exfalso
      cases l with
      | nil => simp at hsz
      | cons x xs =>
        simp only [List.cons.sizeOf_spec] at hsz
        omega
  | succ k ih =>
    constructor
    · intro node hsz d hd
      rw [treeDivs] at hd
      rcases List.mem_append.mp hd with h | h
      · exact nodeDivs_ne node h
      · have hlt : sizeOf node.plans < sizeOf node := node.sizeOf_plans_lt
        exact ih.2 node.plans (by omega) d h
    · intro l hsz d hd
      cases l with
      | nil =>
        rw [forestDivs] at hd
        simp at hd
      | cons x xs =>
        rw [forestDivs] at hd
        have hx : sizeOf x ≤ k := by
          simp only [List.cons.sizeOf_spec] at hsz
          omega
        have hxs : sizeOf xs ≤ k := by
          simp only [List.cons.sizeOf_spec] at hsz
          omega
        rcases List.mem_append.mp hd with h | h
        · exact ih.1 x hx d h
        · exact ih.2 xs hxs d h

/-- C9: every denominator the plan analyzer evaluates on any input plan is
non-zero, so every division (cache-hit ratio, loop ratio, and the constant
scalings inside the formatters) is guarded and yields a defined value. -/
theorem c9_divisions_guarded (plan : List ExplainPlanResult) :
    ∀ d ∈ planDivisors plan, d ≠ 0 := by
  intro d hd
  simp only [planDivisors] at hd
  rcases List.mem_append.mp hd with h | h4
  · rcases List.mem_append.mp h with h | h3
    · rcases List.mem_append.mp h with h1 | h2
      · revert h1
        cases hroot : (plan.head?).bind (·.plan) with
        | some r =>
          intro h1
          exact (divs_ne_aux (sizeOf r)).1 r (le_refl _) d h1
        | none =>
          intro h1
          simp at h1
      · obtain ⟨hg, h2⟩ := mem_ite_nil_elim h2
        rcases List.mem_singleton.mp h2 with rfl
        exact ne_of_gt hg
    · rcases List.mem_singleton.mp h3 with rfl
      split
      · norm_num
      · rename_i hg
        exact hg
  · exact fmtTimeDivs_ne h4

/-- Witness for C9: on the empty plan the guarded cache-hit denominator 1
is among the evaluated divisors, and it is non-zero. -/
theorem c9_divisions_guarded_witness :
    (1 : ℚ) ∈ planDivisors ([] : List ExplainPlanResult) ∧ (1 : ℚ) ≠ 0 := by
  have hmem : (1 : ℚ) ∈ planDivisors ([] : List ExplainPlanResult) := by
    simp [planDivisors, fmtTimeDivs, numOr]
  exact ⟨hmem, c9_divisions_guarded [] 1 hmem⟩

end LibreDB

